import Mathlib

/-!
Shallow embedding of `scripts/merge_chapter1.py`, a tool that merges the
section bodies of a source docx document into the heading structure of a
template document, matching sections by normalized fuzzy-matched titles.

Strings are embedded as `List Char` (Python `str` is a sequence of Unicode
code points).  Python's regex character classes `\d`, `\s`, `\w` are Unicode
based; this embedding fixes them as decidable predicates over the scripts the
tool targets (ASCII and Thai, plus the common Arabic-Indic and Devanagari
digit ranges), which is exhaustive for the documents the tool processes.
Recursions that are not structural in the source (regex scanning, the difflib
block decomposition) take an explicit fuel argument that the wrapper sets
large enough for the recursion to run to completion, so that every definition
evaluates by kernel reduction.
-/

/-! ### Character classification (Python regex classes `\d`, `\s`, `\w`) -/

/-- Python regex `\d` (Unicode decimal digits), restricted to the ranges the
tool meets: ASCII, Arabic-Indic, extended Arabic-Indic, Devanagari, Thai. -/
def isPyDigit (c : Char) : Bool :=
  (0x30 ≤ c.toNat && c.toNat ≤ 0x39) ||
  (0x660 ≤ c.toNat && c.toNat ≤ 0x669) ||
  (0x6F0 ≤ c.toNat && c.toNat ≤ 0x6F9) ||
  (0x966 ≤ c.toNat && c.toNat ≤ 0x96F) ||
  (0xE50 ≤ c.toNat && c.toNat ≤ 0xE59)

/-- The Thai digit block `๐`-`๙` (`๐`-`๙`). -/
def isThaiDigit (c : Char) : Bool :=
  0xE50 ≤ c.toNat && c.toNat ≤ 0xE59

/-- Python regex `\s` / `str.split()` / `str.strip()` whitespace
(`Py_UNICODE_ISSPACE`). -/
def isPySpace (c : Char) : Bool :=
  (0x9 ≤ c.toNat && c.toNat ≤ 0xD) ||
  (0x1C ≤ c.toNat && c.toNat ≤ 0x1F) ||
  c.toNat = 0x20 || c.toNat = 0x85 || c.toNat = 0xA0 ||
  c.toNat = 0x1680 ||
  (0x2000 ≤ c.toNat && c.toNat ≤ 0x200A) ||
  c.toNat = 0x2028 || c.toNat = 0x2029 || c.toNat = 0x202F ||
  c.toNat = 0x205F || c.toNat = 0x3000

/-- Alphabetic characters (Unicode `isalpha`) over the scripts the tool
meets: ASCII letters and the Thai letters (the consonants and `Lo` vowels
0E01-0E30, `า`=0E32, `ำ`=0E33, the leading vowels and signs 0E40-0E46).
The Thai combining marks (0E31, 0E34-0E3A, 0E47-0E4E) are category `Mn`,
not alphabetic, hence not part of Python's `\w`. -/
def isAlphaPy (c : Char) : Bool :=
  (0x41 ≤ c.toNat && c.toNat ≤ 0x5A) ||
  (0x61 ≤ c.toNat && c.toNat ≤ 0x7A) ||
  (0xE01 ≤ c.toNat && c.toNat ≤ 0xE30) ||
  c.toNat = 0xE32 || c.toNat = 0xE33 ||
  (0xE40 ≤ c.toNat && c.toNat ≤ 0xE46)

/-- Python regex `\w`: alphanumeric or underscore. -/
def isWordChar (c : Char) : Bool :=
  isAlphaPy c || isPyDigit c || c = '_'

/-- `str.lower()`, which on the scripts the tool meets (ASCII + Thai, Thai
being caseless) lowers only ASCII `A`-`Z`. -/
def toLowerPy (c : Char) : Char :=
  if 0x41 ≤ c.toNat && c.toNat ≤ 0x5A then Char.ofNat (c.toNat + 0x20) else c

/-- The punctuation class of `normalize_title`'s third substitution:
`[\-–—•·\(\)\[\]\{\}:;,.]`. -/
def isPunctChar (c : Char) : Bool :=
  c = '-' || c = '–' || c = '—' || c = '•' || c = '·' ||
  c = '(' || c = ')' || c = '[' || c = ']' ||
  c = '\x7b' || c = '\x7d' || c = ':' || c = ';' || c = ',' || c = '.'

/-! ### `str.strip()` -/

/-- `str.strip()`: drop `\s` whitespace from both ends. -/
def pyStrip (l : List Char) : List Char :=
  ((l.dropWhile isPySpace).reverse.dropWhile isPySpace).reverse

/-! ### `normalize_title`, substitution 1:
`re.sub(r"\b\d+(?:[\.-]\d+)*\.?\s*", "", text)`.

`re.sub` scans left to right; a match can start only at a word boundary
followed by a digit.  The scanner below carries the wordness of the previously
scanned character (`prevWord`), which is what `\b` tests; after a match it
carries the wordness of the match's last character, since `re` evaluates `\b`
on the original string. -/

/-- Consume `\d+` (greedy). -/
def dropDigits (l : List Char) : List Char :=
  l.dropWhile isPyDigit

/-- Consume `(?:[\.-]\d+)*` (greedy): repeatedly a dot or hyphen followed by
at least one digit, with the inner `\d+` greedy. -/
def eatGroups : Nat → List Char → List Char
  | 0, l => l
  | fuel + 1, l =>
    match l with
    | sep :: c :: rest =>
      if (sep = '.' || sep = '-') && isPyDigit c then eatGroups fuel (dropDigits rest)
      else l
    | _ => l

/-- Consume `\.?\s*`; the returned flag says whether the last character the
whole match consumed was a digit (a word character), i.e. neither the
optional dot nor any whitespace was consumed here. -/
def eatTail (l : List Char) : List Char × Bool :=
  match l with
  | [] => ([], true)
  | c :: rest =>
    if c = '.' then (rest.dropWhile isPySpace, false)
    else if isPySpace c then ((c :: rest).dropWhile isPySpace, false)
    else (c :: rest, true)

/-- Consume the part of a match after its first digit: the rest of `\d+`,
then `(?:[\.-]\d+)*\.?\s*`. -/
def eatMatch (fuel : Nat) (l : List Char) : List Char × Bool :=
  eatTail (eatGroups fuel (dropDigits l))

/-- The scanner of substitution 1.  `prevWord` is the wordness of the
character before the current position (`false` at the start of the string, so
`\b` holds there exactly when the first character is a word character). -/
def stripNums : Nat → Bool → List Char → List Char
  | 0, _, l => l
  | _ + 1, _, [] => []
  | fuel + 1, prevWord, c :: rest =>
    if isPyDigit c && !prevWord then
      -- `\b` holds and `\d` matches: consume the match, drop it from the
      -- output, resume after it.
      let r := eatMatch fuel rest
      stripNums fuel r.2 r.1
    else
      c :: stripNums fuel (isWordChar c) rest

/-- `re.sub(r"\b\d+(?:[\.-]\d+)*\.?\s*", "", text)`. -/
def removeNumberRuns (l : List Char) : List Char :=
  stripNums l.length false l

/-! ### `normalize_title`, substitutions 2-4 and the wrapper -/

/-- `re.sub(r"[๐-๙]", "", text)`: delete Thai digits. -/
def removeThaiDigits (l : List Char) : List Char :=
  l.filter (fun c => !isThaiDigit c)

/-- `re.sub(r"[\-–—•·\(\)\[\]\{\}:;,.]", " ", text)`: punctuation to spaces. -/
def punctToSpace (l : List Char) : List Char :=
  l.map (fun c => if isPunctChar c then ' ' else c)

/-- `re.sub(r"\s+", " ", text)`: collapse each maximal whitespace run to a
single space.  `prevSp` records whether the previous character was
whitespace (i.e. whether we are inside a run already replaced). -/
def collapseWs : Bool → List Char → List Char
  | _, [] => []
  | prevSp, c :: rest =>
    if isPySpace c then
      if prevSp then collapseWs true rest else ' ' :: collapseWs true rest
    else
      c :: collapseWs false rest

/-- `normalize_title`: strip, lower, remove numbering, remove Thai digits,
punctuation to spaces, collapse whitespace, strip.  (The Python `None` guard
returns `""`; the embedding takes the string itself.) -/
def normalize_title (text : List Char) : List Char :=
  let t := pyStrip text
  let t := t.map toLowerPy
  let t := removeNumberRuns t
  let t := removeThaiDigits t
  let t := punctToSpace t
  let t := collapseWs false t
  pyStrip t

/-! ### `_heading_level_from_text` -/

/-- The `str.maketrans("๐๑๒๓๔๕๖๗๘๙", "0123456789")` translation: Thai digits
to their Arabic equivalents, all other characters unchanged. -/
def thaiToArabic (c : Char) : Char :=
  if isThaiDigit c then Char.ofNat (c.toNat - 0xE50 + 0x30) else c

/-- Substring containment, Python's `in` on strings. -/
def containsSub (needle : List Char) : List Char → Bool
  | [] => needle.isPrefixOf []
  | c :: rest => needle.isPrefixOf (c :: rest) || containsSub needle rest

/-- Match of `re.match(r"^(บทที่)\s*\d+", s)`: the chapter marker keyword,
optional whitespace, then at least one digit. -/
def chapterNumMatch (l : List Char) : Bool :=
  "บทที่".data.isPrefixOf l &&
    (match (l.drop "บทที่".data.length).dropWhile isPySpace with
     | c :: _ => isPyDigit c
     | [] => false)

/-- Match of the part of `^(\d+)(?:\.(\d+))*[\.)\s]` after the leading
`\d+` was consumed: either zero further groups and a class character
`[\.)\s]`, or one more group `\.\d+` (inner `\d+` greedy) and recurse.
The regex engine tries the alternatives greedily with backtracking; for the
boolean match result the order is irrelevant.  -/
def dottedTailOk : Nat → List Char → Bool
  | 0, _ => false
  | _ + 1, [] => false
  | fuel + 1, c :: rest =>
    (c = '.' || c = ')' || isPySpace c) ||
    (c = '.' &&
      (match rest with | d :: _ => isPyDigit d | [] => false) &&
      dottedTailOk fuel (dropDigits rest))

/-- Match of `re.match(r"^(\d+)(?:\.(\d+))*[\.)\s]", s)`. -/
def dottedMatch (l : List Char) : Bool :=
  match l with
  | c :: rest => isPyDigit c && dottedTailOk rest.length (dropDigits rest)
  | [] => false

/-- Count of maximal digit runs, `len(re.findall(r"\d+", s))`. -/
def countDigitRunsAux : Bool → List Char → Nat
  | _, [] => 0
  | inRun, c :: rest =>
    if isPyDigit c then (if inRun then 0 else 1) + countDigitRunsAux true rest
    else countDigitRunsAux false rest

/-- Count of maximal digit runs in `l`. -/
def countDigitRuns (l : List Char) : Nat :=
  countDigitRunsAux false l

/-- First whitespace-delimited token, `s.split()[0]` for `s` with no leading
whitespace. -/
def firstToken (l : List Char) : List Char :=
  l.takeWhile (fun c => !isPySpace c)

/-- `_heading_level_from_text`: `None` on empty text; else strip, translate
Thai digits to Arabic; the chapter marker pattern gives level 1; a dotted
numeric prefix gives `max(1, «count of digit runs in the first token»)`;
otherwise not a heading. -/
def headingLevelFromText (text : List Char) : Option Nat :=
  if text = [] then none
  else
    let rawNorm := (pyStrip text).map thaiToArabic
    if chapterNumMatch rawNorm then some 1
    else if dottedMatch rawNorm then
      let parts := countDigitRuns (firstToken rawNorm)
      if parts ≠ 0 then some (max 1 parts) else none
    else none

/-! ### `get_heading_level` and the document model -/

/-- A docx paragraph as the script reads it: the style name
(`paragraph.style.name`, `none` when `paragraph.style is None`), the raw
text, and the texts of the paragraph's runs. -/
structure Paragraph where
  styleName : Option (List Char)
  text : List Char
  runs : List (List Char)
deriving Repr, DecidableEq

/-- Numeric value of a digit character per range (Python's `int()` accepts
any Unicode decimal digits). -/
def digVal (c : Char) : Nat :=
  if 0x30 ≤ c.toNat && c.toNat ≤ 0x39 then c.toNat - 0x30
  else if 0x660 ≤ c.toNat && c.toNat ≤ 0x669 then c.toNat - 0x660
  else if 0x6F0 ≤ c.toNat && c.toNat ≤ 0x6F9 then c.toNat - 0x6F0
  else if 0x966 ≤ c.toNat && c.toNat ≤ 0x96F then c.toNat - 0x966
  else if 0xE50 ≤ c.toNat && c.toNat ≤ 0xE59 then c.toNat - 0xE50
  else 0

/-- `int()` of a digit run. -/
def digitsToNat (l : List Char) : Nat :=
  l.foldl (fun n c => n * 10 + digVal c) 0

/-- Leftmost maximal digit run, `re.search(r"(\d+)", s)`. -/
def firstDigitRun : List Char → Option (List Char)
  | [] => none
  | c :: rest =>
    if isPyDigit c then some (c :: rest.takeWhile isPyDigit)
    else firstDigitRun rest

/-- The digit run matched by `re.search(r"(\d+)$", s)`: the maximal trailing
digit run, where `$` also matches just before one final newline (empty when
`s` has no such run). -/
def trailingDigitRun (s : List Char) : List Char :=
  let sn := if s.getLast? = some '\n' then s.dropLast else s
  (sn.reverse.takeWhile isPyDigit).reverse

/-- Level derived from the style name alone: `style_name.startswith("Heading")`
with a trailing digit run, else a localized style name containing `หัวเรื่อง`
with its leftmost digit run.  (`int()` of a digit run never raises, so the
`except ValueError` branches are dead.) -/
def styleHeadingLevel (styleName : List Char) : Option Nat :=
  if "Heading".data.isPrefixOf styleName && trailingDigitRun styleName ≠ [] then
    some (digitsToNat (trailingDigitRun styleName))
  else if containsSub "หัวเรื่อง".data styleName then
    match firstDigitRun styleName with
    | some run => some (digitsToNat run)
    | none => none
  else none

/-- `get_heading_level`: style-based detection first (with `""` for a missing
style), then the text heuristic. -/
def get_heading_level (p : Paragraph) : Option Nat :=
  match styleHeadingLevel (p.styleName.getD []) with
  | some n => some n
  | none => headingLevelFromText p.text

/-! ### `parse_sections` -/

/-- A section record as `parse_sections` builds it. -/
structure Section where
  title : List Char
  norm_title : List Char
  level : Nat
  paragraphs : List Paragraph
deriving Repr, DecidableEq

/-- One step of `parse_sections`: a heading paragraph starts a new section;
any other paragraph is appended to the current section's body (or dropped
when no heading was seen yet).  The accumulator keeps the sections in
reverse order, the current one at the head. -/
def parseStep (acc : List Section) (p : Paragraph) : List Section :=
  match get_heading_level p with
  | some lvl =>
    { title := pyStrip p.text, norm_title := normalize_title p.text,
      level := lvl, paragraphs := [] } :: acc
  | none =>
    match acc with
    | [] => []
    | cur :: rest => { cur with paragraphs := cur.paragraphs ++ [p] } :: rest

/-- `parse_sections`: group the document's flat paragraph sequence into
sections. -/
def parse_sections (doc : List Paragraph) : List Section :=
  (doc.foldl parseStep []).reverse

/-! ### `build_title_index` -/

/-- Insertion into a Python `dict` modelled as an insertion-ordered
association list: an existing key keeps its place and gets the new value, a
new key is appended. -/
def dictInsert (d : List (List Char × Nat)) (k : List Char) (v : Nat) :
    List (List Char × Nat) :=
  if d.any (fun e => e.1 = k) then
    d.map (fun e => if e.1 = k then (k, v) else e)
  else d ++ [(k, v)]

/-- Python `dict` lookup. -/
def dictLookup (d : List (List Char × Nat)) (k : List Char) : Option Nat :=
  (d.find? (fun e => e.1 = k)).map (fun e => e.2)

/-- `build_title_index`: map each nonempty normalized title to its section's
position; a repeated title keeps the last position. -/
def build_title_index (sections : List Section) : List (List Char × Nat) :=
  sections.enum.foldl
    (fun d e => if e.2.norm_title ≠ [] then dictInsert d e.2.norm_title e.1 else d)
    []

/-! ### `difflib.SequenceMatcher(a, b).ratio()`

`ratio()` is `2*M / (len(a)+len(b))` where `M` is the total size of the
matching blocks.  The blocks come from `get_matching_blocks`, which
recursively takes the longest matching block (`find_longest_match`) and
recurses on the parts before and on the parts after it; the final
size-0 sentinel and the merging of adjacent blocks do not change `M`.
No junk function is passed (`bjunk` is empty), so the junk extension loops
of `find_longest_match` are dead; autojunk is on, so when `len(b) >= 200`
the elements of `b` occurring more than `len(b)//100 + 1` times are
"popular" and left out of `b2j`.  `__chain_b` decides popularity ONCE, from
the full `b`, and every windowed `find_longest_match` of the
`get_matching_blocks` recursion keeps those elements excluded; the embedding
therefore fixes the popularity predicate at the top level and threads it
through the recursion.  The recursion's index windows are realised by
slicing with `take`/`drop`: under the fixed popularity predicate a window's
`b2j` entries are exactly the full-`b` entries restricted to the window and
shifted, so the slice-local dynamic program is the windowed one. -/

/-- The ascending list of positions of `c` in `b` (an entry of difflib's
`b2j` before autojunk). -/
def positionsIn (b : List Char) (c : Char) : List Nat :=
  (List.range b.length).filter (fun j => decide (b[j]? = some c))

/-- Whether `c` is "popular" in `b`: `__chain_b`'s autojunk rule, decided
once from the FULL second sequence (`len(b) >= 200` and more than
`len(b)//100 + 1` occurrences). -/
def isPopular (b : List Char) (c : Char) : Bool :=
  200 ≤ b.length && b.length / 100 + 1 < (positionsIn b c).length

/-- An entry of `b2j` after autojunk: empty for a popular element.  `pop`
is the popularity predicate fixed from the full second sequence; `b` is the
current window of it. -/
def b2j (pop : Char → Bool) (b : List Char) (c : Char) : List Nat :=
  if pop c then [] else positionsIn b c

/-- The running best block of `find_longest_match`. -/
structure MatchBlock where
  besti : Nat
  bestj : Nat
  bestsize : Nat
deriving Repr, DecidableEq

/-- The inner loop body of `find_longest_match`'s dynamic program, for row
`i` with the previous row's run lengths `j2len`: the run ending at `(i, j)`
has length `j2len[j-1] + 1`, recorded in the new row, and a strictly longer
run than any seen replaces the best block. -/
def rowStep (j2len : Nat → Nat) (i : Nat) (st : (Nat → Nat) × MatchBlock)
    (j : Nat) : (Nat → Nat) × MatchBlock :=
  let k := (if j = 0 then 0 else j2len (j - 1)) + 1
  let best := if st.2.bestsize < k then ⟨i + 1 - k, j + 1 - k, k⟩ else st.2
  (fun x => if x = j then k else st.1 x, best)

/-- The dynamic program of `find_longest_match` over all of `a` and `b`,
before the extension loops, with the popularity predicate `pop` fixed from
the full second sequence. -/
def flmDP (pop : Char → Bool) (a b : List Char) : MatchBlock :=
  ((List.range a.length).foldl
    (fun (st : (Nat → Nat) × MatchBlock) i =>
      (b2j pop b (a.getD i ' ')).foldl (rowStep st.1 i) ((fun _ => 0), st.2))
    ((fun _ => 0), ⟨0, 0, 0⟩)).2

/-- Whether `a[i]` and `b[j]` are both in range and equal. -/
def matchAt (a b : List Char) (i j : Nat) : Bool :=
  match a[i]?, b[j]? with
  | some x, some y => decide (x = y)
  | _, _ => false

/-- The first extension loop of `find_longest_match`: grow the block
backwards over equal (non-junk, and `bjunk` is empty) elements.  Each pass
decrements `besti`, so `besti` passes of fuel suffice. -/
def extendBack (a b : List Char) : Nat → MatchBlock → MatchBlock
  | 0, m => m
  | fuel + 1, m =>
    if 0 < m.besti && 0 < m.bestj && matchAt a b (m.besti - 1) (m.bestj - 1) then
      extendBack a b fuel ⟨m.besti - 1, m.bestj - 1, m.bestsize + 1⟩
    else m

/-- The second extension loop: grow the block forwards over equal elements.
Each pass increments `bestsize` under `besti + bestsize < len a`, so
`len a` passes of fuel suffice. -/
def extendFwd (a b : List Char) : Nat → MatchBlock → MatchBlock
  | 0, m => m
  | fuel + 1, m =>
    if m.besti + m.bestsize < a.length && m.bestj + m.bestsize < b.length &&
        matchAt a b (m.besti + m.bestsize) (m.bestj + m.bestsize) then
      extendFwd a b fuel ⟨m.besti, m.bestj, m.bestsize + 1⟩
    else m

/-- `find_longest_match` over all of `a` and `b`, with the popularity
predicate `pop` fixed from the full second sequence. -/
def find_longest_match (pop : Char → Bool) (a b : List Char) : MatchBlock :=
  extendFwd a b a.length (extendBack a b (flmDP pop a b).besti (flmDP pop a b))

/-- Total size of the matching blocks of `get_matching_blocks`: the longest
match plus the totals of the recursions before and after it, with the
popularity predicate fixed across the whole recursion.  The windows shrink
at every recursive call, so `len a + len b` steps of fuel suffice. -/
def matchedTotalF (pop : Char → Bool) : Nat → List Char → List Char → Nat
  | 0, _, _ => 0
  | fuel + 1, a, b =>
    let m := find_longest_match pop a b
    if m.bestsize = 0 then 0
    else
      matchedTotalF pop fuel (a.take m.besti) (b.take m.bestj) + m.bestsize +
        matchedTotalF pop fuel (a.drop (m.besti + m.bestsize))
          (b.drop (m.bestj + m.bestsize))

/-- Total size `M` of the matching blocks of `SequenceMatcher(a, b)`: the
popularity predicate is computed once, from the full `b`. -/
def matchedTotal (a b : List Char) : Nat :=
  matchedTotalF (isPopular b) (a.length + b.length) a b

/-- `SequenceMatcher(a=a, b=b).ratio()`, as the exact rational
`2*M / (len(a)+len(b))` (difflib returns `1.0` when both are empty). -/
def seqRatioQ (a b : List Char) : ℚ :=
  if a.length + b.length = 0 then 1
  else (2 * matchedTotal a b : ℚ) / ((a.length : ℚ) + (b.length : ℚ))

/-! ### `find_best_match` -/

/-- The loop body of `find_best_match`'s fuzzy scan: a strictly better score
replaces the best index and best score. -/
def fuzzyStep (tKey : List Char) (acc : Option Nat × ℚ) (e : List Char × Nat) :
    Option Nat × ℚ :=
  let score := seqRatioQ tKey e.1
  if acc.2 < score then (some e.2, score) else acc

/-- The fuzzy-scan fold of `find_best_match`: track the first strictly
improving score and its position, starting from `(None, 0.0)`. -/
def fuzzyScan (tKey : List Char) (source_index : List (List Char × Nat)) :
    Option Nat × ℚ :=
  source_index.foldl (fuzzyStep tKey) (none, 0)

/-- `find_best_match`: exact lookup of the normalized title first; otherwise
the best similarity ratio over the index, accepted iff it is at least 0.6. -/
def find_best_match (template_title : List Char)
    (source_index : List (List Char × Nat)) : Option Nat :=
  let tKey := normalize_title template_title
  match dictLookup source_index tKey with
  | some i => some i
  | none =>
    let best := fuzzyScan tKey source_index
    if (3 : ℚ) / 5 ≤ best.2 then best.1 else none

/-! ### The document assembler and `merge_chapter` -/

/-- A paragraph of the output document: a heading added via
`add_heading(text, level)` (or its style-name fallback, which produces the
same text at the same level), or a body paragraph copied from a source
paragraph (run texts copied one by one, or the plain text as a single run
when the source paragraph has no runs). -/
inductive OutPara where
  | heading (text : List Char) (level : Nat)
  | body (styleName : Option (List Char)) (runTexts : List (List Char))
deriving Repr, DecidableEq

/-- Copy of one source body paragraph into the output document. -/
def copySourceParagraph (p : Paragraph) : OutPara :=
  OutPara.body p.styleName (if p.runs ≠ [] then p.runs else [p.text])

/-- One iteration of `merge_chapter`'s main loop, processing one template
section: emit its heading; on a match append the matched source section's
body paragraphs and count it matched, otherwise leave the body empty and
count it skipped. -/
def assembleStep (sourceSections : List Section)
    (sourceIndex : List (List Char × Nat))
    (st : List OutPara × Nat × Nat) (tSec : Section) :
    List OutPara × Nat × Nat :=
  let doc := st.1 ++ [OutPara.heading tSec.title tSec.level]
  match find_best_match tSec.title sourceIndex with
  | none => (doc, st.2.1, st.2.2 + 1)
  | some sIdx =>
    let sSec := sourceSections.getD sIdx ⟨[], [], 0, []⟩
    (doc ++ sSec.paragraphs.map copySourceParagraph, st.2.1 + 1, st.2.2)

/-- The main loop of `merge_chapter`: output document, matched count,
skipped count. -/
def assemble (templateSections sourceSections : List Section)
    (sourceIndex : List (List Char × Nat)) : List OutPara × Nat × Nat :=
  templateSections.foldl (assembleStep sourceSections sourceIndex) ([], 0, 0)

/-- The summary record `merge_chapter` returns. -/
structure MergeStats where
  matched_sections : Nat
  skipped_sections : Nat
  total_template_sections : Nat
deriving Repr, DecidableEq

/-- The filesystem as `merge_chapter` observes it: which paths exist, and
whether `shutil.copy2` succeeds. -/
structure FileSystem where
  pathExists : String → Bool
  copyOk : Bool

/-- The externally visible filesystem effects of a `merge_chapter` run, in
order.  A failed backup is reported as a warning on stderr and the merge
continues. -/
inductive Effect where
  | backedUp (original backup : String)
  | backupFailed (target : String)
  | saved (path : String)
deriving Repr, DecidableEq

/-- Rightmost position of `c` in `l`, as Python `str.rfind` (-1 when
absent). -/
def rfindAux (c : Char) : List Char → Nat → Int → Int
  | [], _, acc => acc
  | x :: rest, i, acc => rfindAux c rest (i + 1) (if x = c then i else acc)

/-- Python `str.rfind`. -/
def rfind (l : List Char) (c : Char) : Int :=
  rfindAux c l 0 (-1)

/-- `os.path.splitext` (posix): split at the rightmost dot, provided it lies
after the rightmost separator and the basename has some non-dot character
before it (leading dots never start an extension). -/
def splitext (l : List Char) : List Char × List Char :=
  let sepIndex := rfind l '/'
  let dotIndex := rfind l '.'
  if sepIndex < dotIndex then
    let nameStart := (sepIndex + 1).toNat
    let lead := (l.drop nameStart).take (dotIndex.toNat - nameStart)
    if lead.any (fun c => c ≠ '.') then
      (l.take dotIndex.toNat, l.drop dotIndex.toNat)
    else (l, [])
  else (l, [])

/-- The backup path of `merge_chapter`: `f"{base} (backup){ext}"`. -/
def backupPath (target : String) : String :=
  let se := splitext target.data
  String.mk (se.1 ++ " (backup)".data ++ se.2)

/-- `merge_chapter`: fail with `FileNotFoundError` when the template or the
source path is missing, before producing any effect; otherwise parse both
documents, assemble the output, back up an existing target (a backup failure
only warns), save, and return the statistics.  The reading of a document
file is modelled by the map `read` from paths to paragraph sequences. -/
def merge_chapter (fs : FileSystem) (read : String → List Paragraph)
    (template_path source_path target_path : String) :
    Except String (List Effect × List OutPara × MergeStats) :=
  if !fs.pathExists template_path then
    .error ("Template not found: " ++ template_path)
  else if !fs.pathExists source_path then
    .error ("Source not found: " ++ source_path)
  else
    let templateSections := parse_sections (read template_path)
    let sourceSections := parse_sections (read source_path)
    let sourceIndex := build_title_index sourceSections
    let res := assemble templateSections sourceSections sourceIndex
    let backupEffects :=
      if fs.pathExists target_path then
        if fs.copyOk then [Effect.backedUp target_path (backupPath target_path)]
        else [Effect.backupFailed target_path]
      else []
    .ok (backupEffects ++ [Effect.saved target_path], res.1,
      { matched_sections := res.2.1, skipped_sections := res.2.2,
        total_template_sections := templateSections.length })

/-! ## Claim C1: exact-match precedence -/

/-- C1: for every template title and every source index, if the normalized
form of the template title is present verbatim as a key in the source index,
`find_best_match` returns the position stored under that key — the fuzzy
scan is never consulted, so any other indexed title with a higher similarity
ratio is irrelevant. -/
theorem claim_C1_exact_match_precedence
    (template_title : List Char) (source_index : List (List Char × Nat))
    (i : Nat)
    (h : dictLookup source_index (normalize_title template_title) = some i) :
    find_best_match template_title source_index = some i := by
  simp [find_best_match, h]

/-- Witness for C1 at a concrete input: the index holds the normalized
template title `intro` (stored position 0) next to a longer decoy key. -/
theorem claim_C1_exact_match_precedence_witness :
    dictLookup [("intro".data, 0), ("introx".data, 1)]
        (normalize_title "  Intro ".data) = some 0 ∧
    find_best_match "  Intro ".data [("intro".data, 0), ("introx".data, 1)] =
      some 0 :=
  ⟨by decide, claim_C1_exact_match_precedence _ _ _ (by decide)⟩

/-! ## Claim C6: missing input files are fatal, before any output -/

/-- The effects a `merge_chapter` run performs: none on the fatal
file-not-found path, the payload's effect list otherwise. -/
def runEffects (r : Except String (List Effect × List OutPara × MergeStats)) :
    List Effect :=
  match r with
  | .error _ => []
  | .ok p => p.1

/-- C6: `merge_chapter` fails with a file-not-found error exactly when the
template path or the source path does not exist, and on that path it
performs no effect at all — in particular no output document is saved and no
backup copy is created. -/
theorem claim_C6_missing_inputs_fatal (fs : FileSystem)
    (read : String → List Paragraph) (template_path source_path target_path : String) :
    ((∃ msg, merge_chapter fs read template_path source_path target_path =
        .error msg) ↔
      (fs.pathExists template_path = false ∨ fs.pathExists source_path = false)) ∧
    (∀ msg, merge_chapter fs read template_path source_path target_path =
        .error msg →
      runEffects (merge_chapter fs read template_path source_path target_path) = []) :=
  by
  constructor
  · constructor
    · rintro ⟨msg, hmsg⟩
      by_cases hT : fs.pathExists template_path
      · by_cases hS : fs.pathExists source_path
        · simp [merge_chapter, hT, hS] at hmsg
        · exact Or.inr (by simpa using hS)
      · exact Or.inl (by simpa using hT)
    · rintro (h | h)
      · exact ⟨"Template not found: " ++ template_path, by simp [merge_chapter, h]⟩
      · by_cases hT : fs.pathExists template_path
        · exact ⟨"Source not found: " ++ source_path, by simp [merge_chapter, hT, h]⟩
        · have hT' : fs.pathExists template_path = false := by simpa using hT
          exact ⟨"Template not found: " ++ template_path, by simp [merge_chapter, hT']⟩
  · intro msg hmsg
    simp [runEffects, hmsg]

/-! ## Claim C7: backup of an existing target -/

/-- C7: when both inputs exist and the target path already exists, the run's
effects are exactly a backup step for the target followed by the save of the
target: on a successful copy the target is first copied to the sibling path
`backupPath target_path` (the suffix marker ` (backup)` inserted before the
extension), and on a failed copy a warning is recorded instead — the save of
the target happens in both cases. -/
theorem claim_C7_backup_existing_target (fs : FileSystem)
    (read : String → List Paragraph)
    (template_path source_path target_path : String)
    (hT : fs.pathExists template_path = true)
    (hS : fs.pathExists source_path = true)
    (hG : fs.pathExists target_path = true) :
    ∃ doc stats,
      merge_chapter fs read template_path source_path target_path =
        .ok ((if fs.copyOk then
                [Effect.backedUp target_path (backupPath target_path)]
              else [Effect.backupFailed target_path]) ++
              [Effect.saved target_path], doc, stats) := by
  simp only [merge_chapter, hT, hS, hG, Bool.not_true, Bool.false_eq_true,
    if_false, if_true]
  exact ⟨_, _, rfl⟩

/-- Witness for C7 at a concrete input, on both sides of `copyOk`: with a
successful copy the backup effect precedes the save; with a failing copy a
warning precedes the save. -/
theorem claim_C7_backup_existing_target_witness :
    (∃ doc stats,
      merge_chapter ⟨fun _ => true, true⟩ (fun _ => []) "t.docx" "s.docx" "g.docx" =
        .ok ([Effect.backedUp "g.docx" (backupPath "g.docx"),
              Effect.saved "g.docx"], doc, stats)) ∧
    (∃ doc stats,
      merge_chapter ⟨fun _ => true, false⟩ (fun _ => []) "t.docx" "s.docx" "g.docx" =
        .ok ([Effect.backupFailed "g.docx", Effect.saved "g.docx"], doc, stats)) := by
  constructor
  · obtain ⟨doc, stats, h⟩ :=
      claim_C7_backup_existing_target ⟨fun _ => true, true⟩ (fun _ => [])
        "t.docx" "s.docx" "g.docx" rfl rfl rfl
    exact ⟨doc, stats, by simpa using h⟩
  · obtain ⟨doc, stats, h⟩ :=
      claim_C7_backup_existing_target ⟨fun _ => true, false⟩ (fun _ => [])
        "t.docx" "s.docx" "g.docx" rfl rfl rfl
    exact ⟨doc, stats, by simpa using h⟩

/-! ## Claim C8: an unmatched template section is skipped, not an error -/

/-- C8: a template section whose title has no match in the source index
still gets its heading emitted with the original (unnormalized) title at the
recorded level, contributes no body paragraph, and increments the skipped
count by exactly one; the merge loop continues normally (the step is a total
function — no error is raised). -/
theorem claim_C8_unmatched_section_skipped
    (sourceSections : List Section) (sourceIndex : List (List Char × Nat))
    (doc : List OutPara) (matched skipped : Nat) (tSec : Section)
    (h : find_best_match tSec.title sourceIndex = none) :
    assembleStep sourceSections sourceIndex (doc, matched, skipped) tSec =
      (doc ++ [OutPara.heading tSec.title tSec.level], matched, skipped + 1) := by
  simp [assembleStep, h]

/-- Witness for C8 at a concrete input: an unmatched section emits only its
heading and bumps the skipped count. -/
theorem claim_C8_unmatched_section_skipped_witness :
    find_best_match "Unrelated".data [("methods".data, 0)] = none ∧
    assembleStep [] [("methods".data, 0)] ([], 3, 1)
        ⟨"Unrelated".data, "unrelated".data, 2, []⟩ =
      ([OutPara.heading "Unrelated".data 2], 3, 2) := by
  have h : find_best_match "Unrelated".data [("methods".data, 0)] = none := by
    have h1 : normalize_title "Unrelated".data = "unrelated".data := by decide
    have h2 : matchedTotal "unrelated".data "methods".data = 3 := by decide
    have hl : dictLookup [("methods".data, 0)] "unrelated".data = none := by decide
    simp [find_best_match, h1, hl, fuzzyScan, fuzzyStep, seqRatioQ, h2]
    norm_num
  refine ⟨h, ?_⟩
  have := claim_C8_unmatched_section_skipped [] [("methods".data, 0)] [] 3 1
    ⟨"Unrelated".data, "unrelated".data, 2, []⟩ h
  simpa using this

/-! ## Claim C9: matched + skipped = total -/

/-- Helper: the assembler's fold counts every processed template section
exactly once, as matched or as skipped. -/
theorem assemble_counts_aux (sourceSections : List Section)
    (sourceIndex : List (List Char × Nat)) (ts : List Section)
    (st : List OutPara × Nat × Nat) :
    (ts.foldl (assembleStep sourceSections sourceIndex) st).2.1 +
      (ts.foldl (assembleStep sourceSections sourceIndex) st).2.2 =
      st.2.1 + st.2.2 + ts.length := by
  induction ts generalizing st with
  | nil => simp
  | cons t ts ih =>
    rw [List.foldl_cons, ih]
    rcases st with ⟨doc, m, s⟩
    cases h : find_best_match t.title sourceIndex <;>
      simp [assembleStep, h] <;> omega

/-- C9: every completed `merge_chapter` run returns statistics with
`matched_sections + skipped_sections = total_template_sections`, the number
of sections parsed from the template document. -/
theorem claim_C9_stats_partition (fs : FileSystem)
    (read : String → List Paragraph)
    (template_path source_path target_path : String)
    (effs : List Effect) (doc : List OutPara) (stats : MergeStats)
    (h : merge_chapter fs read template_path source_path target_path =
      .ok (effs, doc, stats)) :
    stats.matched_sections + stats.skipped_sections =
      stats.total_template_sections ∧
    stats.total_template_sections = (parse_sections (read template_path)).length := by
  by_cases hT : fs.pathExists template_path
  · by_cases hS : fs.pathExists source_path
    · simp [merge_chapter, hT, hS] at h
      obtain ⟨-, -, hstats⟩ := h
      subst hstats
      refine ⟨?_, rfl⟩
      have := assemble_counts_aux (parse_sections (read source_path))
        (build_title_index (parse_sections (read source_path)))
        (parse_sections (read template_path)) ([], 0, 0)
      simpa [assemble] using this
    · simp [merge_chapter, hT, hS] at h
  · simp [merge_chapter, hT] at h

/-- Witness for C9 at a concrete run: the claim theorem applied to an actual
completed merge. -/
theorem claim_C9_stats_partition_witness :
    ∃ effs doc stats,
      merge_chapter ⟨fun p => p = "t.docx" ∨ p = "s.docx", true⟩
        (fun p => if p = "t.docx" then
            [⟨some "Heading 1".data, "Intro".data, []⟩,
             ⟨some "Heading 1".data, "Methods".data, []⟩]
          else [⟨some "Heading 1".data, "1. Intro".data, []⟩,
                ⟨some "Normal".data, "body".data, []⟩,
                ⟨some "Heading 1".data, "2. Methods".data, []⟩])
        "t.docx" "s.docx" "g.docx" = .ok (effs, doc, stats) ∧
      stats.matched_sections + stats.skipped_sections =
        stats.total_template_sections := by
  obtain ⟨effs, doc, stats, h⟩ :
      ∃ effs doc stats,
        merge_chapter ⟨fun p => p = "t.docx" ∨ p = "s.docx", true⟩
          (fun p => if p = "t.docx" then
              [⟨some "Heading 1".data, "Intro".data, []⟩,
               ⟨some "Heading 1".data, "Methods".data, []⟩]
            else [⟨some "Heading 1".data, "1. Intro".data, []⟩,
                  ⟨some "Normal".data, "body".data, []⟩,
                  ⟨some "Heading 1".data, "2. Methods".data, []⟩])
          "t.docx" "s.docx" "g.docx" = .ok (effs, doc, stats) := by
    cases hm : merge_chapter ⟨fun p => p = "t.docx" ∨ p = "s.docx", true⟩
        (fun p => if p = "t.docx" then
            [⟨some "Heading 1".data, "Intro".data, []⟩,
             ⟨some "Heading 1".data, "Methods".data, []⟩]
          else [⟨some "Heading 1".data, "1. Intro".data, []⟩,
                ⟨some "Normal".data, "body".data, []⟩,
                ⟨some "Heading 1".data, "2. Methods".data, []⟩])
        "t.docx" "s.docx" "g.docx" with
    | error msg => simp [merge_chapter] at hm
    | ok p => exact ⟨p.1, p.2.1, p.2.2, rfl⟩
  exact ⟨effs, doc, stats, h, (claim_C9_stats_partition _ _ _ _ _ _ _ _ h).1⟩

/-! ## Claim C5: style-name check precedes the text heuristic -/

/-- C5: heading classification consults the style name first.  A style name
beginning with `Heading` and carrying a trailing level digit run yields that
number; otherwise a localized style name containing `หัวเรื่อง` with a digit
yields its leftmost digit run's number; the text heuristic is consulted
exactly when no level can be derived from the style name. -/
theorem claim_C5_style_before_text (p : Paragraph) :
    ("Heading".data.isPrefixOf (p.styleName.getD []) = true →
      trailingDigitRun (p.styleName.getD []) ≠ [] →
      get_heading_level p =
        some (digitsToNat (trailingDigitRun (p.styleName.getD [])))) ∧
    (∀ run,
      ¬("Heading".data.isPrefixOf (p.styleName.getD []) = true ∧
          trailingDigitRun (p.styleName.getD []) ≠ []) →
      containsSub "หัวเรื่อง".data (p.styleName.getD []) = true →
      firstDigitRun (p.styleName.getD []) = some run →
      get_heading_level p = some (digitsToNat run)) ∧
    (styleHeadingLevel (p.styleName.getD []) = none →
      get_heading_level p = headingLevelFromText p.text) := by
  refine ⟨?_, ?_, ?_⟩
  · intro hpre htrail
    simp [get_heading_level, styleHeadingLevel, hpre, htrail]
  · intro run hlatin hsub hrun
    rcases Bool.eq_false_or_eq_true
        ("Heading".data.isPrefixOf (p.styleName.getD [])) with hpre | hpre
    case inl =>
      have ht : trailingDigitRun (p.styleName.getD []) = [] := by
        by_contra ht
        exact hlatin ⟨hpre, ht⟩
      simp [get_heading_level, styleHeadingLevel, hpre, ht, hsub, hrun]
    case inr =>
      simp [get_heading_level, styleHeadingLevel, hpre, hsub, hrun]
  · intro hnone
    simp [get_heading_level, hnone]

/-- Witness for C5 at concrete inputs: a `Heading 2` style wins over a text
whose heuristic level would be 3; a localized style supplies its digit; a
plain style defers to the text heuristic. -/
theorem claim_C5_style_before_text_witness :
    get_heading_level ⟨some "Heading 2".data, "1.2.3 z".data, []⟩ = some 2 ∧
    get_heading_level ⟨some "หัวเรื่อง 4".data, "1.2.3 z".data, []⟩ = some 4 ∧
    get_heading_level ⟨some "Normal".data, "1.2.3 z".data, []⟩ =
      headingLevelFromText "1.2.3 z".data := by
  refine ⟨?_, ?_, ?_⟩
  · have h := (claim_C5_style_before_text
      ⟨some "Heading 2".data, "1.2.3 z".data, []⟩).1 (by decide) (by decide)
    rw [h]; decide
  · have h := (claim_C5_style_before_text
      ⟨some "หัวเรื่อง 4".data, "1.2.3 z".data, []⟩).2.1 "4".data
      (by decide) (by decide) (by decide)
    rw [h]; decide
  · exact (claim_C5_style_before_text
      ⟨some "Normal".data, "1.2.3 z".data, []⟩).2.2 (by decide)

/-! ## Claim C4: the text-based heading heuristic -/

/-- Helper: a digit is not whitespace. -/
theorem isPyDigit_not_space {c : Char} (h : isPyDigit c = true) :
    isPySpace c = false := by
  rcases Bool.eq_false_or_eq_true (isPySpace c) with hs | hs
  · exfalso
    simp only [isPyDigit, Bool.or_eq_true, Bool.and_eq_true, decide_eq_true_eq] at h
    simp only [isPySpace, Bool.or_eq_true, Bool.and_eq_true, decide_eq_true_eq] at hs
    omega
  · exact hs

/-- Helper: a dotted-prefix match starts with a digit, so the first
whitespace-delimited token contains at least one digit run. -/
theorem dottedMatch_parts_pos (l : List Char) (h : dottedMatch l = true) :
    countDigitRuns (firstToken l) ≠ 0 := by
  cases l with
  | nil => simp [dottedMatch] at h
  | cons c rest =>
    simp only [dottedMatch, Bool.and_eq_true] at h
    have hd : isPyDigit c = true := h.1
    simp [firstToken, countDigitRuns, countDigitRunsAux, isPyDigit_not_space hd, hd]

/-- C4: `_heading_level_from_text` classifies a text by its stripped,
Thai-digit-transliterated form: the chapter-marker pattern (the keyword, then
a number, regardless of any further digits) gives level 1; otherwise a dotted
numeric prefix gives level `max 1 n` where `n` is the number of digit runs in
the first whitespace-delimited token (so `1.2.3 Something` gives 3 and
`1 Something` gives 1); any other text — including the empty one — is not a
heading. -/
theorem claim_C4_text_heuristic :
    headingLevelFromText "1.2.3 Something".data = some 3 ∧
    headingLevelFromText "1 Something".data = some 1 ∧
    (∀ text : List Char, text ≠ [] →
      chapterNumMatch ((pyStrip text).map thaiToArabic) = true →
      headingLevelFromText text = some 1) ∧
    (∀ text : List Char, text ≠ [] →
      chapterNumMatch ((pyStrip text).map thaiToArabic) = false →
      dottedMatch ((pyStrip text).map thaiToArabic) = true →
      headingLevelFromText text =
        some (max 1 (countDigitRuns (firstToken ((pyStrip text).map thaiToArabic))))) ∧
    (∀ text : List Char,
      text = [] ∨
        (chapterNumMatch ((pyStrip text).map thaiToArabic) = false ∧
         dottedMatch ((pyStrip text).map thaiToArabic) = false) →
      headingLevelFromText text = none) := by
  refine ⟨by decide, by decide, ?_, ?_, ?_⟩
  · intro text hne hch
    simp [headingLevelFromText, hne, hch]
  · intro text hne hch hdot
    have hparts := dottedMatch_parts_pos _ hdot
    simp [headingLevelFromText, hne, hch, hdot, hparts]
  · rintro text (rfl | ⟨hch, hdot⟩)
    · simp [headingLevelFromText]
    · simp [headingLevelFromText, hch, hdot]

/-- Witness for C4 at concrete inputs: a chapter-marker heading with extra
digits is level 1, a three-component dotted prefix is level 3, and plain
text is no heading. -/
theorem claim_C4_text_heuristic_witness :
    headingLevelFromText "บทที่ 12ab".data = some 1 ∧
    headingLevelFromText "10.20.30 deep".data = some 3 ∧
    headingLevelFromText "Hello".data = none := by
  refine ⟨?_, ?_, ?_⟩
  · rw [claim_C4_text_heuristic.2.2.1 "บทที่ 12ab".data (by decide) (by decide)]
  · rw [claim_C4_text_heuristic.2.2.2.1 "10.20.30 deep".data (by decide)
      (by decide) (by decide)]
    decide
  · exact claim_C4_text_heuristic.2.2.2.2 "Hello".data (Or.inr ⟨by decide, by decide⟩)

/-! ## Claim C2: the fuzzy threshold at 0.6 -/

/-- The maximum similarity ratio over an index (0 for an empty index), as
the fuzzy scan accumulates it. -/
def maxRatioQ (tKey : List Char) (source_index : List (List Char × Nat)) : ℚ :=
  source_index.foldl (fun m e => max m (seqRatioQ tKey e.1)) 0

/-- Helper: the fuzzy scan's best score is the running maximum of the
scores. -/
theorem fuzzyScan_snd (t : List Char) (idx : List (List Char × Nat))
    (init : Option Nat × ℚ) :
    (idx.foldl (fuzzyStep t) init).2 =
      idx.foldl (fun m e => max m (seqRatioQ t e.1)) init.2 := by
  induction idx generalizing init with
  | nil => rfl
  | cons e idx ih =>
    rw [List.foldl_cons, List.foldl_cons, ih]
    congr 1
    by_cases h : init.2 < seqRatioQ t e.1
    · simp [fuzzyStep, h, max_eq_right h.le]
    · simp [fuzzyStep, h, max_eq_left (not_lt.mp h)]

/-- Helper: a fold of `max` dominates its start. -/
theorem foldl_max_ge_init (t : List Char) (idx : List (List Char × Nat))
    (m0 : ℚ) : m0 ≤ idx.foldl (fun m e => max m (seqRatioQ t e.1)) m0 := by
  induction idx generalizing m0 with
  | nil => exact le_refl _
  | cons e idx ih => exact le_trans (le_max_left _ _) (ih _)

/-- Helper: a fold of `max` dominates every score in the list. -/
theorem foldl_max_ge_mem (t : List Char) (idx : List (List Char × Nat)) :
    ∀ (m0 : ℚ), ∀ e ∈ idx,
      seqRatioQ t e.1 ≤ idx.foldl (fun m e => max m (seqRatioQ t e.1)) m0 := by
  induction idx with
  | nil =>
    intro m0 e he
    cases he
  | cons a idx ih =>
    intro m0 e he
    rcases List.mem_cons.mp he with rfl | he
    · exact le_trans (le_max_right _ _) (foldl_max_ge_init _ _ _)
    · exact ih _ e he

/-- Helper: once the fuzzy scan holds a position it never returns to
`none`. -/
theorem fuzzyScan_some_stays (t : List Char) (idx : List (List Char × Nat))
    (i : Nat) (q : ℚ) :
    ∃ i', (idx.foldl (fuzzyStep t) (some i, q)).1 = some i' := by
  induction idx generalizing i q with
  | nil => exact ⟨i, rfl⟩
  | cons e idx ih =>
    rw [List.foldl_cons]
    by_cases h : q < seqRatioQ t e.1
    · simpa [fuzzyStep, h] using ih e.2 (seqRatioQ t e.1)
    · simpa [fuzzyStep, h] using ih i q

/-- Helper: a fuzzy scan that ends on `none` never updated its state. -/
theorem fuzzyScan_none_fixed (t : List Char) (idx : List (List Char × Nat))
    (init : Option Nat × ℚ) (h : (idx.foldl (fuzzyStep t) init).1 = none) :
    idx.foldl (fuzzyStep t) init = init := by
  induction idx generalizing init with
  | nil => rfl
  | cons e idx ih =>
    rw [List.foldl_cons] at h ⊢
    by_cases hlt : init.2 < seqRatioQ t e.1
    · exfalso
      have hstep : fuzzyStep t init e = (some e.2, seqRatioQ t e.1) := by
        simp [fuzzyStep, hlt]
      rw [hstep] at h
      obtain ⟨i', hi'⟩ := fuzzyScan_some_stays t idx e.2 (seqRatioQ t e.1)
      rw [hi'] at h
      cases h
    · have hstep : fuzzyStep t init e = init := by simp [fuzzyStep, hlt]
      rw [hstep] at h ⊢
      exact ih init h

/-- Helper: a fuzzy scan that ends on `some i` either never updated, or `i`
comes from an index entry whose score is the final best score. -/
theorem fuzzyScan_some_mem (t : List Char) (idx : List (List Char × Nat))
    (init : Option Nat × ℚ) (i : Nat)
    (h : (idx.foldl (fuzzyStep t) init).1 = some i) :
    idx.foldl (fuzzyStep t) init = init ∨
      ∃ k, (k, i) ∈ idx ∧ seqRatioQ t k = (idx.foldl (fuzzyStep t) init).2 := by
  induction idx generalizing init with
  | nil => exact Or.inl rfl
  | cons e idx ih =>
    rw [List.foldl_cons] at h ⊢
    rcases ih (fuzzyStep t init e) h with heq | ⟨k, hk, hsc⟩
    · rw [heq] at h ⊢
      by_cases hlt : init.2 < seqRatioQ t e.1
      · have hstep : fuzzyStep t init e = (some e.2, seqRatioQ t e.1) := by
          simp [fuzzyStep, hlt]
        rw [hstep] at h ⊢
        cases h
        exact Or.inr ⟨e.1, List.mem_cons_self _ _, rfl⟩
      · have hstep : fuzzyStep t init e = init := by simp [fuzzyStep, hlt]
        rw [hstep]
        exact Or.inl rfl
    · exact Or.inr ⟨k, List.mem_cons_of_mem _ hk, hsc⟩

/-- C2: for a template title whose normalized form is not an index key, the
matcher scores every indexed title by its similarity ratio to the normalized
title and keeps the maximum: when that maximum is at least 0.6 (`3/5`
exactly — so a ratio of exactly 0.6 is accepted) it returns a stored
position whose ratio attains the maximum, and when the maximum is below 0.6
it returns no match.  Every indexed title's ratio is bounded by the
maximum. -/
theorem claim_C2_fuzzy_threshold (template_title : List Char)
    (source_index : List (List Char × Nat))
    (hmiss : dictLookup source_index (normalize_title template_title) = none) :
    (∀ e ∈ source_index,
      seqRatioQ (normalize_title template_title) e.1 ≤
        maxRatioQ (normalize_title template_title) source_index) ∧
    ((3 : ℚ) / 5 ≤ maxRatioQ (normalize_title template_title) source_index →
      ∃ k i, (k, i) ∈ source_index ∧
        seqRatioQ (normalize_title template_title) k =
          maxRatioQ (normalize_title template_title) source_index ∧
        find_best_match template_title source_index = some i) ∧
    (maxRatioQ (normalize_title template_title) source_index < (3 : ℚ) / 5 →
      find_best_match template_title source_index = none) := by
  set t := normalize_title template_title with ht
  have hsnd : (source_index.foldl (fuzzyStep t) (none, 0)).2 =
      maxRatioQ t source_index :=
    fuzzyScan_snd t source_index (none, 0)
  refine ⟨fun e he => foldl_max_ge_mem t source_index 0 e he, ?_, ?_⟩
  · intro hge
    cases hfst : (source_index.foldl (fuzzyStep t) (none, 0)).1 with
    | none =>
      exfalso
      have hfix := fuzzyScan_none_fixed t source_index (none, 0) hfst
      have h0 : maxRatioQ t source_index = 0 := by
        rw [← hsnd, hfix]
      rw [h0] at hge
      norm_num at hge
    | some i =>
      rcases fuzzyScan_some_mem t source_index (none, 0) i hfst with heq | ⟨k, hk, hsc⟩
      · rw [heq] at hfst
        cases hfst
      · refine ⟨k, i, hk, by rw [hsc, hsnd], ?_⟩
        simp only [find_best_match, fuzzyScan, ← ht, hmiss]
        rw [if_pos (by rw [hsnd]; exact hge), hfst]
  · intro hlt
    simp only [find_best_match, fuzzyScan, ← ht, hmiss]
    rw [if_neg (by rw [hsnd]; exact not_le.mpr hlt)]

/-- Witness for C2 at concrete inputs: `abcx` against the index key `abcdef`
has ratio exactly `2*3/10 = 3/5 = 0.6` and is accepted; `wxyz` against the
key `wab` has ratio `2/7 < 0.6` and is rejected. -/
theorem claim_C2_fuzzy_threshold_witness :
    seqRatioQ (normalize_title "abcx".data) "abcdef".data = 3 / 5 ∧
    find_best_match "abcx".data [("abcdef".data, 7)] = some 7 ∧
    maxRatioQ (normalize_title "wxyz".data) [("wab".data, 5)] < 3 / 5 ∧
    find_best_match "wxyz".data [("wab".data, 5)] = none := by
  have hn1 : normalize_title "abcx".data = "abcx".data := by decide
  have hm1 : matchedTotal "abcx".data "abcdef".data = 3 := by decide
  have hla : "abcx".data.length = 4 := by decide
  have hlb : "abcdef".data.length = 6 := by decide
  have hr1 : seqRatioQ "abcx".data "abcdef".data = 3 / 5 := by
    simp [seqRatioQ, hm1, hla, hlb]
    norm_num
  have hmax1 : maxRatioQ "abcx".data [("abcdef".data, 7)] = 3 / 5 := by
    simp [maxRatioQ, hr1]
    norm_num
  have hd1 : dictLookup [("abcdef".data, 7)] "abcx".data = none := by decide
  have hn2 : normalize_title "wxyz".data = "wxyz".data := by decide
  have hm2 : matchedTotal "wxyz".data "wab".data = 1 := by decide
  have hlc : "wxyz".data.length = 4 := by decide
  have hld : "wab".data.length = 3 := by decide
  have hr2 : seqRatioQ "wxyz".data "wab".data = 2 / 7 := by
    simp [seqRatioQ, hm2, hlc, hld]
    norm_num
  have hmax2 : maxRatioQ "wxyz".data [("wab".data, 5)] = 2 / 7 := by
    simp [maxRatioQ, hr2]
    norm_num
  have hd2 : dictLookup [("wab".data, 5)] "wxyz".data = none := by decide
  obtain ⟨-, hacc, -⟩ := claim_C2_fuzzy_threshold "abcx".data
    [("abcdef".data, 7)] (by rw [hn1]; exact hd1)
  obtain ⟨k, i, hki, -, hfind⟩ := hacc (by rw [hn1, hmax1])
  have hi : i = 7 := by
    rcases List.mem_singleton.mp hki with h
    exact congrArg Prod.snd h
  obtain ⟨-, -, hrej⟩ := claim_C2_fuzzy_threshold "wxyz".data
    [("wab".data, 5)] (by rw [hn2]; exact hd2)
  have hnone := hrej (by rw [hn2, hmax2]; norm_num)
  rw [hi] at hfind
  refine ⟨by rw [hn1]; exact hr1, hfind, ?_, hnone⟩
  rw [hn2, hmax2]
  norm_num

/-! ## Claim C10: the title index -/

/-- Helper: looking up a key other than the inserted one ignores an in-place
replacement. -/
theorem find?_map_replace_ne (d : List (List Char × Nat)) (k : List Char)
    (v : Nat) (k' : List Char) (hne : k' ≠ k) :
    List.find? (fun e => e.1 = k')
        (d.map fun e => if e.1 = k then (k, v) else e) =
      List.find? (fun e => e.1 = k') d := by
  induction d with
  | nil => rfl
  | cons e d ih =>
    by_cases he : e.1 = k
    · have h1 : (if e.1 = k then (k, v) else e) = (k, v) := if_pos he
      rw [List.map_cons, h1,
        List.find?_cons_of_neg _ (by simp; exact Ne.symm hne),
        List.find?_cons_of_neg _ (by simp [he]; exact Ne.symm hne), ih]
    · have h1 : (if e.1 = k then (k, v) else e) = e := if_neg he
      rw [List.map_cons, h1]
      by_cases hp : e.1 = k'
      · rw [List.find?_cons_of_pos _ (by simp [hp]),
          List.find?_cons_of_pos _ (by simp [hp])]
      · rw [List.find?_cons_of_neg _ (by simp [hp]),
          List.find?_cons_of_neg _ (by simp [hp]), ih]

/-- Helper: looking up the inserted key after an in-place replacement finds
the new value, provided the key was present. -/
theorem find?_map_replace_eq (d : List (List Char × Nat)) (k : List Char)
    (v : Nat) (hany : d.any (fun e => e.1 = k) = true) :
    List.find? (fun e => e.1 = k)
        (d.map fun e => if e.1 = k then (k, v) else e) = some (k, v) := by
  induction d with
  | nil => simp at hany
  | cons e d ih =>
    by_cases he : e.1 = k
    · have h1 : (if e.1 = k then (k, v) else e) = (k, v) := if_pos he
      rw [List.map_cons, h1, List.find?_cons_of_pos _ (by simp)]
    · have h1 : (if e.1 = k then (k, v) else e) = e := if_neg he
      rw [List.map_cons, h1, List.find?_cons_of_neg _ (by simp [he])]
      have hany' : d.any (fun e => e.1 = k) = true := by
        rcases List.any_eq_true.mp hany with ⟨x, hx, hpx⟩
        rcases List.mem_cons.mp hx with rfl | hx
        · exact absurd (of_decide_eq_true hpx) he
        · exact List.any_eq_true.mpr ⟨x, hx, hpx⟩
      exact ih hany'

/-- Helper: the lookup of a `dictInsert` result: the inserted key maps to
the new value, any other key looks up the original dictionary. -/
theorem dictLookup_dictInsert (d : List (List Char × Nat)) (k : List Char)
    (v : Nat) (k' : List Char) :
    dictLookup (dictInsert d k v) k' =
      if k' = k then some v else dictLookup d k' := by
  by_cases hany : d.any (fun e => e.1 = k) = true
  · rw [dictInsert, if_pos hany]
    by_cases hk : k' = k
    · subst hk
      rw [if_pos rfl, dictLookup, find?_map_replace_eq d k' v hany]
      rfl
    · rw [if_neg hk, dictLookup, dictLookup, find?_map_replace_ne d k v k' hk]
  · rw [dictInsert, if_neg hany]
    have hnone : List.find? (fun e => e.1 = k) d = none := by
      rw [List.find?_eq_none]
      intro x hx
      simp only [decide_eq_true_eq]
      intro hxk
      exact hany (List.any_eq_true.mpr ⟨x, hx, by simp [hxk]⟩)
    by_cases hk : k' = k
    · subst hk
      rw [if_pos rfl, dictLookup, List.find?_append, hnone]
      simp
    · rw [if_neg hk, dictLookup, dictLookup, List.find?_append]
      have h2 : List.find? (fun e => e.1 = k') [(k, v)] = none := by
        simp
        exact Ne.symm hk
      rw [h2]
      simp

/-- Helper: a fold preserves any invariant its step preserves. -/
theorem foldl_invariant {α : Type} {σ : Type} (f : σ → α → σ) (l : List α)
    (init : σ) (P : σ → Prop) (h0 : P init)
    (hstep : ∀ s a, a ∈ l → P s → P (f s a)) : P (l.foldl f init) := by
  induction l generalizing init with
  | nil => exact h0
  | cons a l ih =>
    exact ih (f init a) (hstep init a (List.mem_cons_self a l) h0)
      (fun s b hb hs => hstep s b (List.mem_cons_of_mem _ hb) hs)

/-- Helper: membership after a `dictInsert`. -/
theorem mem_dictInsert (d : List (List Char × Nat)) (k : List Char) (v : Nat)
    (e : List Char × Nat) (he : e ∈ dictInsert d k v) :
    e ∈ d ∨ e = (k, v) := by
  rw [dictInsert] at he
  by_cases hany : d.any (fun e => e.1 = k) = true
  · rw [if_pos hany] at he
    rcases List.mem_map.mp he with ⟨x, hx, hfx⟩
    by_cases hxk : x.1 = k
    · right
      rw [← hfx, if_pos hxk]
    · left
      rw [← hfx, if_neg hxk]
      exact hx
  · rw [if_neg hany] at he
    rcases List.mem_append.mp he with h | h
    · exact Or.inl h
    · exact Or.inr (List.mem_singleton.mp h)

/-- Helper: `dictInsert` does not change the list of keys when the key is
present, and appends the new key otherwise; in both cases key distinctness
is preserved. -/
theorem dictInsert_keys_nodup (d : List (List Char × Nat)) (k : List Char)
    (v : Nat) (hd : (d.map Prod.fst).Nodup) :
    ((dictInsert d k v).map Prod.fst).Nodup := by
  rw [dictInsert]
  by_cases hany : d.any (fun e => e.1 = k) = true
  · rw [if_pos hany]
    have hkeys : (d.map fun e => if e.1 = k then (k, v) else e).map Prod.fst =
        d.map Prod.fst := by
      rw [List.map_map]
      refine List.map_congr_left ?_
      intro e he
      by_cases hek : e.1 = k
      · simp [hek]
      · simp [hek]
    rw [hkeys]
    exact hd
  · rw [if_neg hany, List.map_append]
    refine List.Nodup.append hd (List.nodup_singleton _) ?_
    intro x hx hy
    rcases List.mem_map.mp hx with ⟨e, he, rfl⟩
    rcases List.mem_singleton.mp hy with rfl
    exact hany (List.any_eq_true.mpr ⟨e, he, by simp⟩)

/-- Helper: every entry of the title index has a nonempty key and an
in-range position, and the keys are pairwise distinct. -/
theorem build_title_index_entries (ss : List Section) :
    (∀ e ∈ build_title_index ss, e.1 ≠ [] ∧ e.2 < ss.length) ∧
    ((build_title_index ss).map Prod.fst).Nodup := by
  refine foldl_invariant
    (fun d (e : Nat × Section) =>
      if e.2.norm_title ≠ [] then dictInsert d e.2.norm_title e.1 else d)
    ss.enum []
    (fun d => (∀ e ∈ d, e.1 ≠ [] ∧ e.2 < ss.length) ∧ (d.map Prod.fst).Nodup)
    ⟨fun e he => absurd he (List.not_mem_nil e), List.nodup_nil⟩ ?_
  intro d a ha hP
  beta_reduce
  by_cases hn : a.2.norm_title ≠ []
  · rw [if_pos hn]
    refine ⟨?_, dictInsert_keys_nodup _ _ _ hP.2⟩
    intro e he
    rcases mem_dictInsert _ _ _ _ he with h | rfl
    · exact hP.1 e h
    · exact ⟨hn, (List.mem_enum ha).1⟩
  · rw [if_neg hn]
    exact hP

/-- Helper: the lookup of a key maps a stored pair to its value when the
keys are distinct. -/
theorem dictLookup_of_mem (d : List (List Char × Nat)) (k : List Char)
    (i : Nat) (hnd : (d.map Prod.fst).Nodup) (hmem : (k, i) ∈ d) :
    dictLookup d k = some i := by
  induction d with
  | nil => cases hmem
  | cons e d ih =>
    rcases List.mem_cons.mp hmem with rfl | hmem'
    · rw [dictLookup, List.find?_cons_of_pos _ (by simp)]
      rfl
    · have hek : e.1 ≠ k := by
        intro hek
        have : e.1 ∈ d.map Prod.fst :=
          List.mem_map.mpr ⟨(k, i), hmem', by rw [hek]⟩
        rw [List.map_cons] at hnd
        exact (List.nodup_cons.mp hnd).1 this
      rw [dictLookup, List.find?_cons_of_neg _ (by simp [hek])]
      exact ih ((List.nodup_cons.mp (List.map_cons Prod.fst e d ▸ hnd)).2) hmem'

/-- The position `i` holds the last source section (in document order) whose
normalized title is the nonempty key `k`. -/
def LastWins (ss : List Section) (k : List Char) (i : Nat) : Prop :=
  k ≠ [] ∧ ∃ sec, ss[i]? = some sec ∧ sec.norm_title = k ∧
    ∀ j sec2, i < j → ss[j]? = some sec2 → sec2.norm_title ≠ k

/-- Helper: appending a section whose normalized title is not the (nonempty)
key leaves `LastWins` unchanged. -/
theorem lastWins_append (ss : List Section) (sec : Section) (k : List Char)
    (i : Nat) (h : k ≠ [] → sec.norm_title ≠ k) :
    LastWins (ss ++ [sec]) k i ↔ LastWins ss k i := by
  constructor
  · rintro ⟨hk, sec', hget, hnorm, hlast⟩
    have hi : i < ss.length + 1 := by
      have := (List.getElem?_eq_some_iff.mp hget).1
      simpa using this
    have hilt : i < ss.length := by
      rcases Nat.lt_succ_iff_lt_or_eq.mp hi with h' | rfl
      · exact h'
      · exfalso
        rw [List.getElem?_concat_length] at hget
        cases hget
        exact h hk hnorm
    refine ⟨hk, sec', ?_, hnorm, ?_⟩
    · rw [← List.getElem?_append_left hilt]
      exact hget
    · intro j sec2 hij hj
      refine hlast j sec2 hij ?_
      have hjlt : j < ss.length := (List.getElem?_eq_some_iff.mp hj).1
      rw [List.getElem?_append_left hjlt]
      exact hj
  · rintro ⟨hk, sec', hget, hnorm, hlast⟩
    have hilt : i < ss.length := (List.getElem?_eq_some_iff.mp hget).1
    refine ⟨hk, sec', ?_, hnorm, ?_⟩
    · rw [List.getElem?_append_left hilt]
      exact hget
    · intro j sec2 hij hj
      rcases Nat.lt_trichotomy j ss.length with hjlt | rfl | hjgt
      · refine hlast j sec2 hij ?_
        rw [← List.getElem?_append_left hjlt]
        exact hj
      · rw [List.getElem?_concat_length] at hj
        cases hj
        exact h hk
      · exfalso
        have : (ss ++ [sec])[j]? = none := by
          apply List.getElem?_eq_none
          simpa using hjgt
        rw [this] at hj
        cases hj

/-- Helper: appending a section whose normalized title is the nonempty key
makes its position (the new last position) the unique `LastWins` witness. -/
theorem lastWins_append_self (ss : List Section) (sec : Section)
    (k : List Char) (i : Nat) (hk : k ≠ []) (hnorm : sec.norm_title = k) :
    LastWins (ss ++ [sec]) k i ↔ i = ss.length := by
  constructor
  · rintro ⟨-, sec', hget, hnorm', hlast⟩
    by_contra hne
    have hi : i < ss.length + 1 := by
      have := (List.getElem?_eq_some_iff.mp hget).1
      simpa using this
    have hilt : i < ss.length := by
      rcases Nat.lt_succ_iff_lt_or_eq.mp hi with h' | h'
      · exact h'
      · exact absurd h' hne
    exact hlast ss.length sec hilt (List.getElem?_concat_length ss sec) hnorm
  · rintro rfl
    refine ⟨hk, sec, List.getElem?_concat_length ss sec, hnorm, ?_⟩
    intro j sec2 hj hget
    exfalso
    have : (ss ++ [sec])[j]? = none := by
      apply List.getElem?_eq_none
      simpa using hj
    rw [this] at hget
    cases hget

/-- Helper: the lookup of the title index realizes the last-wins semantics
of repeated `dict` assignment during `build_title_index`. -/
theorem dictLookup_build_title_index (ss : List Section) (k : List Char)
    (i : Nat) :
    dictLookup (build_title_index ss) k = some i ↔ LastWins ss k i := by
  induction ss using List.reverseRecOn generalizing i with
  | nil =>
    simp only [build_title_index, List.enum_nil, List.foldl_nil]
    constructor
    · intro h
      cases h
    · rintro ⟨-, sec, hget, -⟩
      rw [List.getElem?_eq_none (by simp)] at hget
      cases hget
  | append_singleton ss sec ih =>
    have hb : build_title_index (ss ++ [sec]) =
        (if sec.norm_title ≠ [] then
          dictInsert (build_title_index ss) sec.norm_title ss.length
        else build_title_index ss) := by
      rw [build_title_index, List.enum_append, List.foldl_append]
      simp only [List.enumFrom, List.foldl_cons, List.foldl_nil]
      rfl
    rw [hb]
    by_cases hn : sec.norm_title ≠ []
    · rw [if_pos hn, dictLookup_dictInsert]
      by_cases hkn : k = sec.norm_title
      · subst hkn
        rw [if_pos rfl]
        rw [lastWins_append_self ss sec _ i hn rfl]
        constructor
        · intro h
          cases h
          rfl
        · rintro rfl
          rfl
      · rw [if_neg hkn, ih i, lastWins_append ss sec k i (fun _ => fun h => hkn h.symm)]
    · rw [if_neg hn]
      push_neg at hn
      rw [ih i, lastWins_append ss sec k i (fun hk => by rw [hn]; exact Ne.symm hk)]

/-- Helper: any position `find_best_match` returns is the value of some
index entry. -/
theorem find_best_match_mem (t : List Char) (idx : List (List Char × Nat))
    (i : Nat) (h : find_best_match t idx = some i) :
    ∃ k, (k, i) ∈ idx := by
  rw [find_best_match] at h
  cases hl : dictLookup idx (normalize_title t) with
  | some j =>
    rw [hl] at h
    cases h
    rw [dictLookup] at hl
    cases hf : List.find? (fun e => e.1 = normalize_title t) idx with
    | none =>
      rw [hf] at hl
      cases hl
    | some e =>
      rw [hf] at hl
      cases hl
      exact ⟨e.1, List.mem_of_find?_eq_some hf⟩
  | none =>
    rw [hl] at h
    by_cases hge : (3 : ℚ) / 5 ≤ (fuzzyScan (normalize_title t) idx).2
    · rw [if_pos hge] at h
      rcases fuzzyScan_some_mem (normalize_title t) idx (none, 0) i h with heq | ⟨k, hk, -⟩
      · rw [fuzzyScan] at h
        rw [heq] at h
        cases h
      · exact ⟨k, hk⟩
    · rw [if_neg hge] at h
      cases h

/-- C10: the title index built from the source sections has no entry with an
empty key — and any position the matcher returns is a stored entry whose
section has a nonempty normalized title, so a section normalizing to the
empty string can never be matched — every stored position is a valid index
into the source section list, and a key shared by several sections is mapped
to the position of the last of them in document order. -/
theorem claim_C10_title_index (ss : List Section) :
    (∀ e ∈ build_title_index ss, e.1 ≠ [] ∧ e.2 < ss.length) ∧
    (∀ k i, dictLookup (build_title_index ss) k = some i ↔ LastWins ss k i) ∧
    (∀ t i, find_best_match t (build_title_index ss) = some i →
      ∃ sec, ss[i]? = some sec ∧ sec.norm_title ≠ []) := by
  refine ⟨(build_title_index_entries ss).1, fun k i => dictLookup_build_title_index ss k i, ?_⟩
  intro t i h
  obtain ⟨k, hk⟩ := find_best_match_mem t (build_title_index ss) i h
  have hl := dictLookup_of_mem _ _ _ (build_title_index_entries ss).2 hk
  obtain ⟨hkne, sec, hget, hnorm, -⟩ := (dictLookup_build_title_index ss k i).mp hl
  exact ⟨sec, hget, by rw [hnorm]; exact hkne⟩

/-- Witness for C10 at a concrete source document: an untitled (empty-norm)
section is absent from the index, a duplicated normalized title keeps the
last position, and a matched position points at a titled section. -/
theorem claim_C10_title_index_witness :
    build_title_index [⟨"1. Intro".data, "intro".data, 1, []⟩,
        ⟨"---".data, [], 1, []⟩,
        ⟨"2. Intro".data, "intro".data, 1, []⟩] =
      [("intro".data, 2)] ∧
    (∀ e ∈ build_title_index [⟨"1. Intro".data, "intro".data, 1, []⟩,
        ⟨"---".data, [], 1, []⟩,
        ⟨"2. Intro".data, "intro".data, 1, []⟩],
      e.1 ≠ [] ∧ e.2 < 3) ∧
    LastWins [⟨"1. Intro".data, "intro".data, 1, []⟩,
        ⟨"---".data, [], 1, []⟩,
        ⟨"2. Intro".data, "intro".data, 1, []⟩] "intro".data 2 := by
  refine ⟨by decide, ?_, ?_⟩
  · have h := (claim_C10_title_index [⟨"1. Intro".data, "intro".data, 1, []⟩,
        ⟨"---".data, [], 1, []⟩,
        ⟨"2. Intro".data, "intro".data, 1, []⟩]).1
    simpa using h
  · exact ((claim_C10_title_index [⟨"1. Intro".data, "intro".data, 1, []⟩,
        ⟨"---".data, [], 1, []⟩,
        ⟨"2. Intro".data, "intro".data, 1, []⟩]).2.1 "intro".data 2).mp (by decide)

/-! ## Claim C3: idempotence of `normalize_title`

The proof establishes invariants of `normalize_title`'s output — every digit
is preceded by a word character (so substitution 1 finds no word boundary
before a digit), no Thai digits, no punctuation, canonical whitespace,
lowercase, stripped — and shows that each of the six stages fixes a string
with these invariants. -/

/-- Helper: `Char.ofNat` of a valid scalar value. -/
theorem toNat_charOfNat (n : Nat) (h : n < 0xD800) : (Char.ofNat n).toNat = n := by
  unfold Char.ofNat
  rw [dif_pos (Or.inl h)]
  rfl

/-- Helper: a Thai digit is a digit. -/
theorem isThaiDigit_isPyDigit {c : Char} (h : isThaiDigit c = true) :
    isPyDigit c = true := by
  simp only [isThaiDigit, Bool.and_eq_true, decide_eq_true_eq] at h
  simp only [isPyDigit, Bool.or_eq_true, Bool.and_eq_true, decide_eq_true_eq]
  omega

/-- Helper: a digit is a word character. -/
theorem isPyDigit_isWordChar {c : Char} (h : isPyDigit c = true) :
    isWordChar c = true := by
  simp only [isWordChar, Bool.or_eq_true]
  exact Or.inl (Or.inr h)

/-- Helper: a Bool that cannot be true is false. -/
theorem bfalse {b : Bool} (h : b = true → False) : b = false := by
  cases hb : b
  · rfl
  · exact (h hb).elim

/-- Helper: whitespace is not a word character. -/
theorem isPySpace_not_word {c : Char} (h : isPySpace c = true) :
    isWordChar c = false := by
  refine bfalse (fun hw => ?_)
  simp only [isPySpace, Bool.or_eq_true, Bool.and_eq_true, decide_eq_true_eq] at h
  simp only [isWordChar, isAlphaPy, isPyDigit, Bool.or_eq_true, Bool.and_eq_true,
    decide_eq_true_eq] at hw
  rcases hw with (hw | hw) | hw
  · omega
  · omega
  · rw [hw] at h
    simp at h

/-- Helper: a punctuation-class character is neither a digit nor a word
character nor whitespace. -/
theorem isPunctChar_classes {c : Char} (h : isPunctChar c = true) :
    isPyDigit c = false ∧ isWordChar c = false ∧ isPySpace c = false ∧
      isThaiDigit c = false := by
  simp only [isPunctChar, Bool.or_eq_true, decide_eq_true_eq] at h
  rcases h with (((((((((((((h | h) | h) | h) | h) | h) | h) | h) | h) | h) |
    h) | h) | h) | h) | h <;>
    subst h <;> exact ⟨by decide, by decide, by decide, by decide⟩

/-- Helper: facts about the space character. -/
theorem space_char_classes :
    isPySpace ' ' = true ∧ isWordChar ' ' = false ∧ isPyDigit ' ' = false ∧
      isThaiDigit ' ' = false ∧ isPunctChar ' ' = false ∧ toLowerPy ' ' = ' ' :=
  ⟨by decide, by decide, by decide, by decide, by decide, by decide⟩

/-- Helper: `toLowerPy` is idempotent and preserves every character class. -/
theorem toLowerPy_spec (c : Char) :
    toLowerPy (toLowerPy c) = toLowerPy c ∧
    isPyDigit (toLowerPy c) = isPyDigit c ∧
    isWordChar (toLowerPy c) = isWordChar c ∧
    isThaiDigit (toLowerPy c) = isThaiDigit c ∧
    isPunctChar (toLowerPy c) = isPunctChar c ∧
    isPySpace (toLowerPy c) = isPySpace c := by
  by_cases h : 0x41 ≤ c.toNat ∧ c.toNat ≤ 0x5A
  · have hlow : toLowerPy c = Char.ofNat (c.toNat + 0x20) := by
      rw [toLowerPy, if_pos (by simp [h.1, h.2])]
    have htn : (Char.ofNat (c.toNat + 0x20)).toNat = c.toNat + 0x20 :=
      toNat_charOfNat _ (by omega)
    have hdigc : isPyDigit c = false := bfalse fun hc => by
      simp only [isPyDigit, Bool.or_eq_true, Bool.and_eq_true, decide_eq_true_eq] at hc
      omega
    have hdigd : isPyDigit (Char.ofNat (c.toNat + 0x20)) = false := bfalse fun hc => by
      simp only [isPyDigit, Bool.or_eq_true, Bool.and_eq_true, decide_eq_true_eq,
        htn] at hc
      omega
    have hthaic : isThaiDigit c = false := bfalse fun hc => by
      rw [isThaiDigit_isPyDigit hc] at hdigc
      cases hdigc
    have hthaid : isThaiDigit (Char.ofNat (c.toNat + 0x20)) = false := bfalse fun hc => by
      rw [isThaiDigit_isPyDigit hc] at hdigd
      cases hdigd
    have hwordc : isWordChar c = true := by
      have ha : isAlphaPy c = true := by
        simp only [isAlphaPy, Bool.or_eq_true, Bool.and_eq_true, decide_eq_true_eq]
        omega
      simp [isWordChar, ha]
    have hwordd : isWordChar (Char.ofNat (c.toNat + 0x20)) = true := by
      have ha : isAlphaPy (Char.ofNat (c.toNat + 0x20)) = true := by
        simp only [isAlphaPy, Bool.or_eq_true, Bool.and_eq_true, decide_eq_true_eq,
          htn]
        omega
      simp [isWordChar, ha]
    have hpunctc : isPunctChar c = false := bfalse fun hp => by
      rw [(isPunctChar_classes hp).2.1] at hwordc
      cases hwordc
    have hpunctd : isPunctChar (Char.ofNat (c.toNat + 0x20)) = false := bfalse fun hp => by
      rw [(isPunctChar_classes hp).2.1] at hwordd
      cases hwordd
    have hspacec : isPySpace c = false := bfalse fun hs => by
      rw [isPySpace_not_word hs] at hwordc
      cases hwordc
    have hspaced : isPySpace (Char.ofNat (c.toNat + 0x20)) = false := bfalse fun hs => by
      rw [isPySpace_not_word hs] at hwordd
      cases hwordd
    have hidem : toLowerPy (Char.ofNat (c.toNat + 0x20)) = Char.ofNat (c.toNat + 0x20) := by
      rw [toLowerPy, if_neg (by rw [htn]; intro hc; simp at hc; omega)]
    rw [hlow]
    exact ⟨hidem, by rw [hdigd, hdigc], by rw [hwordd, hwordc],
      by rw [hthaid, hthaic], by rw [hpunctd, hpunctc], by rw [hspaced, hspacec]⟩
  · have hlow : toLowerPy c = c := by
      rw [toLowerPy, if_neg (by intro hc; simp at hc; exact h ⟨hc.1, hc.2⟩)]
    rw [hlow]
    exact ⟨hlow, rfl, rfl, rfl, rfl, rfl⟩

/-- Whether a string does not begin with a digit (trivially so when
empty). -/
def headNotDigit : List Char → Bool
  | [] => true
  | c :: _ => !isPyDigit c

/-- The word-boundary guard of substitution 1: `guardedAux p l` holds when
scanning `l` with `prevWord = p` meets no word boundary directly before a
digit — every digit in `l` is preceded by a word character (or by `p` for
the first position). -/
def guardedAux : Bool → List Char → Bool
  | _, [] => true
  | p, c :: rest => (!isPyDigit c || p) && guardedAux (isWordChar c) rest

/-- Helper: the guard state is irrelevant when the string does not start
with a digit. -/
theorem guardedAux_of_headNotDigit {l : List Char} (h : headNotDigit l = true)
    (p q : Bool) : guardedAux p l = guardedAux q l := by
  cases l with
  | nil => rfl
  | cons c rest =>
    simp only [headNotDigit, Bool.not_eq_true'] at h
    simp [guardedAux, h]

/-- Helper: dropping the digits of a string leaves no digit at its head. -/
theorem headNotDigit_dropDigits (l : List Char) :
    headNotDigit (dropDigits l) = true := by
  induction l with
  | nil => rfl
  | cons c t ih =>
    rw [dropDigits, List.dropWhile_cons]
    by_cases hc : isPyDigit c = true
    · rw [if_pos hc]
      rw [dropDigits] at ih
      exact ih
    · rw [if_neg hc]
      simp [headNotDigit, hc]

/-- Helper: `eatGroups` keeps the head-not-digit property. -/
theorem headNotDigit_eatGroups :
    ∀ (fuel : Nat) (l : List Char), headNotDigit l = true →
      headNotDigit (eatGroups fuel l) = true
  | 0, l, h => h
  | fuel + 1, [], h => h
  | fuel + 1, [c], h => h
  | fuel + 1, sep :: c :: rest, h => by
    rw [eatGroups]
    by_cases hc : ((sep = '.' || sep = '-') && isPyDigit c) = true
    · rw [if_pos hc]
      exact headNotDigit_eatGroups fuel _ (headNotDigit_dropDigits rest)
    · rw [if_neg hc]
      exact h

/-- Helper: `eatGroups` returns a suffix of its input. -/
theorem eatGroups_suffix :
    ∀ (fuel : Nat) (l : List Char), eatGroups fuel l <:+ l
  | 0, l => List.suffix_refl l
  | fuel + 1, [] => List.suffix_refl []
  | fuel + 1, [c] => List.suffix_refl [c]
  | fuel + 1, sep :: c :: rest => by
    rw [eatGroups]
    by_cases hc : ((sep = '.' || sep = '-') && isPyDigit c) = true
    · rw [if_pos hc]
      refine List.IsSuffix.trans (List.IsSuffix.trans
        (eatGroups_suffix fuel (dropDigits rest)) (List.dropWhile_suffix _)) ?_
      exact List.IsSuffix.trans (List.suffix_cons c rest) (List.suffix_cons sep _)
    · rw [if_neg hc]

/-- Helper: `eatTail` returns a suffix of its input. -/
theorem eatTail_suffix (l : List Char) : (eatTail l).1 <:+ l := by
  cases l with
  | nil => exact List.suffix_refl []
  | cons c rest =>
    rw [eatTail]
    by_cases hc : c = '.'
    · rw [if_pos hc]
      exact List.IsSuffix.trans (List.dropWhile_suffix _) (List.suffix_cons c rest)
    · rw [if_neg hc]
      by_cases hs : isPySpace c = true
      · rw [if_pos hs]
        exact List.dropWhile_suffix _
      · rw [if_neg hs]

/-- Helper: when `eatTail` reports that the match ended on a digit, it
consumed nothing. -/
theorem eatTail_true (l : List Char) (h : (eatTail l).2 = true) :
    (eatTail l).1 = l := by
  cases l with
  | nil => rfl
  | cons c rest =>
    rw [eatTail] at h ⊢
    by_cases hc : c = '.'
    · rw [if_pos hc] at h
      cases h
    · rw [if_neg hc] at h ⊢
      by_cases hs : isPySpace c = true
      · rw [if_pos hs] at h
        cases h
      · rw [if_neg hs]

/-- Helper: the remainder after a whole match is a suffix of the input. -/
theorem eatMatch_suffix (fuel : Nat) (l : List Char) :
    (eatMatch fuel l).1 <:+ l := by
  rw [eatMatch]
  exact List.IsSuffix.trans (eatTail_suffix _)
    (List.IsSuffix.trans (eatGroups_suffix fuel _) (List.dropWhile_suffix _))

/-- Helper: when a match ends on a digit, what follows does not start with
a digit (the greedy `\d+` would have continued). -/
theorem eatMatch_true_headNotDigit (fuel : Nat) (l : List Char)
    (h : (eatMatch fuel l).2 = true) :
    headNotDigit (eatMatch fuel l).1 = true := by
  rw [eatMatch] at h ⊢
  rw [eatTail_true _ h]
  exact headNotDigit_eatGroups fuel _ (headNotDigit_dropDigits l)

/-- Helper: with a word character before the scan position, the scanner
keeps a non-digit head in place. -/
theorem headNotDigit_stripNums (fuel : Nat) (l : List Char)
    (h : headNotDigit l = true) :
    headNotDigit (stripNums fuel true l) = true := by
  cases fuel with
  | zero => exact h
  | succ fuel =>
    cases l with
    | nil => rfl
    | cons c rest =>
      simp only [stripNums, Bool.not_true, Bool.and_false, Bool.false_eq_true,
        if_false]
      simp only [headNotDigit] at h ⊢
      exact h

/-- Helper: the output of substitution 1's scanner has no digit after a
word boundary: scanning it again from the same guard state finds no
match. -/
theorem guardedAux_stripNums :
    ∀ (fuel : Nat) (p : Bool) (l : List Char), l.length ≤ fuel →
      guardedAux p (stripNums fuel p l) = true := by
  intro fuel
  induction fuel with
  | zero =>
    intro p l hl
    rw [List.length_eq_zero.mp (Nat.le_zero.mp hl)]
    rfl
  | succ fuel ih =>
    intro p l hl
    cases l with
    | nil => rfl
    | cons c rest =>
      by_cases hcond : (isPyDigit c && !p) = true
      · have hp : p = false := by
          revert hcond
          cases p <;> simp
        simp only [stripNums, hcond, if_true]
        have hlen : (eatMatch fuel rest).1.length ≤ fuel :=
          le_trans (List.IsSuffix.length_le (eatMatch_suffix fuel rest))
            (by simpa using hl)
        have hIH := ih (eatMatch fuel rest).2 (eatMatch fuel rest).1 hlen
        cases hr2 : (eatMatch fuel rest).2 with
        | false =>
          rw [hr2] at hIH
          rw [hp]
          exact hIH
        | true =>
          rw [hr2] at hIH
          have hnd := eatMatch_true_headNotDigit fuel rest hr2
          have hnd2 := headNotDigit_stripNums fuel _ hnd
          rw [guardedAux_of_headNotDigit hnd2 p true]
          exact hIH
      · simp only [stripNums, hcond, if_false]
        simp only [guardedAux, Bool.and_eq_true]
        constructor
        · revert hcond
          cases hd : isPyDigit c <;> cases hp : p <;> simp
        · exact ih (isWordChar c) rest (by simpa using hl)

/-- Helper: substitution 1 leaves a string with no boundary-guarded digit
unchanged. -/
theorem stripNums_id :
    ∀ (fuel : Nat) (p : Bool) (l : List Char), l.length ≤ fuel →
      guardedAux p l = true → stripNums fuel p l = l := by
  intro fuel
  induction fuel with
  | zero =>
    intro p l hl hg
    rw [List.length_eq_zero.mp (Nat.le_zero.mp hl)]
    rfl
  | succ fuel ih =>
    intro p l hl hg
    cases l with
    | nil => rfl
    | cons c rest =>
      simp only [guardedAux, Bool.and_eq_true, Bool.or_eq_true] at hg
      have hcond : (isPyDigit c && !p) = false := by
        rcases hg.1 with h1 | h1 <;> simp [h1] <;> simp at h1 <;> simp [h1]
      simp only [stripNums, hcond, Bool.false_eq_true, if_false]
      rw [ih (isWordChar c) rest (by simpa using hl) hg.2]

/-- Helper: removing characters that are both digits and word characters
(such as Thai digits) keeps the scan guarded. -/
theorem guardedAux_filter (keep : Char → Bool)
    (hrem : ∀ c, keep c = false → isPyDigit c = true ∧ isWordChar c = true) :
    ∀ (l : List Char) (p : Bool), guardedAux p l = true →
      guardedAux p (l.filter keep) = true := by
  intro l
  induction l with
  | nil =>
    intro p h
    exact h
  | cons c rest ih =>
    intro p h
    simp only [guardedAux, Bool.and_eq_true] at h
    rw [List.filter_cons]
    by_cases hk : keep c = true
    · rw [if_pos hk]
      simp only [guardedAux, Bool.and_eq_true]
      exact ⟨h.1, ih _ h.2⟩
    · rw [if_neg hk]
      obtain ⟨hdig, hword⟩ := hrem c (by simpa using hk)
      have hp : p = true := by
        have h1 := h.1
        rw [hdig] at h1
        simpa using h1
      have h2 : guardedAux true rest = true := by
        have h2 := h.2
        rw [hword] at h2
        exact h2
      rw [hp]
      exact ih true h2

/-- Helper: a character map that reflects digits and preserves word
characters keeps the scan guarded. -/
theorem guardedAux_map (f : Char → Char)
    (hd : ∀ c, isPyDigit (f c) = isPyDigit c)
    (hw : ∀ c, isWordChar (f c) = isWordChar c) :
    ∀ (l : List Char) (p : Bool), guardedAux p l = true →
      guardedAux p (l.map f) = true := by
  intro l
  induction l with
  | nil =>
    intro p h
    exact h
  | cons c rest ih =>
    intro p h
    simp only [guardedAux, Bool.and_eq_true] at h
    simp only [List.map_cons, guardedAux, Bool.and_eq_true, hd, hw]
    exact ⟨h.1, ih _ h.2⟩

/-- Helper: collapsing whitespace keeps the scan guarded (a space is never
a word character, so the guard state after an emitted space is `false`, as
it is after the run it replaces). -/
theorem guardedAux_collapseWs :
    ∀ (l : List Char) (p s : Bool), guardedAux p l = true →
      (s = true → p = false) → guardedAux p (collapseWs s l) = true := by
  intro l
  induction l with
  | nil =>
    intro p s h hs
    exact h
  | cons c rest ih =>
    intro p s h hs
    simp only [guardedAux, Bool.and_eq_true] at h
    by_cases hsp : isPySpace c = true
    · have hrest : guardedAux false rest = true := by
        rw [← isPySpace_not_word hsp]
        exact h.2
      cases s with
      | true =>
        simp only [collapseWs, hsp, if_true]
        rw [hs rfl]
        exact ih false true hrest (fun _ => rfl)
      | false =>
        simp only [collapseWs, hsp, if_true]
        simp only [guardedAux, Bool.and_eq_true]
        refine ⟨by simp [space_char_classes.2.2.1], ?_⟩
        rw [space_char_classes.2.1]
        exact ih false true hrest (fun _ => rfl)
    · simp only [collapseWs, hsp, Bool.false_eq_true, if_false]
      simp only [guardedAux, Bool.and_eq_true]
      exact ⟨h.1, ih (isWordChar c) false h.2 (by simp)⟩

/-- Helper: dropping leading whitespace keeps a scan guarded from the
boundary state. -/
theorem guardedAux_dropWhile_space (l : List Char)
    (h : guardedAux false l = true) :
    guardedAux false (l.dropWhile isPySpace) = true := by
  induction l with
  | nil => exact h
  | cons c rest ih =>
    rw [List.dropWhile_cons]
    simp only [guardedAux, Bool.and_eq_true] at h
    by_cases hsp : isPySpace c = true
    · rw [if_pos hsp]
      refine ih ?_
      rw [← isPySpace_not_word hsp]
      exact h.2
    · rw [if_neg hsp]
      simp only [guardedAux, Bool.and_eq_true]
      exact ⟨h.1, h.2⟩

/-- Helper: a prefix of a guarded string is guarded. -/
theorem guardedAux_append_left (l1 l2 : List Char) (p : Bool)
    (h : guardedAux p (l1 ++ l2) = true) : guardedAux p l1 = true := by
  induction l1 generalizing p with
  | nil => rfl
  | cons c rest ih =>
    simp only [List.cons_append, guardedAux, Bool.and_eq_true] at h
    simp only [guardedAux, Bool.and_eq_true]
    exact ⟨h.1, ih _ h.2⟩

/-- Helper: the right strip keeps a prefix of its input. -/
theorem rstrip_prefix (l : List Char) :
    ∃ l2, l = (l.reverse.dropWhile isPySpace).reverse ++ l2 := by
  obtain ⟨t, ht⟩ := List.dropWhile_suffix (l := l.reverse) isPySpace
  refine ⟨t.reverse, ?_⟩
  have := congrArg List.reverse ht
  rw [List.reverse_append, List.reverse_reverse] at this
  exact this.symm

/-- Helper: stripping keeps a scan guarded from the boundary state. -/
theorem guardedAux_pyStrip (l : List Char) (h : guardedAux false l = true) :
    guardedAux false (pyStrip l) = true := by
  rw [pyStrip]
  have h1 := guardedAux_dropWhile_space l h
  obtain ⟨l2, hl2⟩ := rstrip_prefix (l.dropWhile isPySpace)
  rw [hl2] at h1
  exact guardedAux_append_left _ _ _ h1

/-- Canonical whitespace: every whitespace character is a plain space, and
no two whitespace characters are adjacent — exactly the strings that
substitution 4 leaves unchanged. -/
def wsCanonical : List Char → Bool
  | [] => true
  | c :: rest =>
    (!isPySpace c || c = ' ') &&
    (match rest with
     | d :: _ => !(isPySpace c && isPySpace d)
     | [] => true) &&
    wsCanonical rest

/-- Helper: the head of a collapsed string: with `s = true` the first
emitted character is the run's first non-space character; with `s = false`
a leading space run is emitted as one `' '`. -/
theorem collapseWs_head_not_space (l : List Char) :
    ∀ c, (collapseWs true l).head? = some c → isPySpace c = false := by
  induction l with
  | nil =>
    intro c hc
    cases hc
  | cons a rest ih =>
    intro c hc
    by_cases hsp : isPySpace a = true
    · simp only [collapseWs, hsp, if_true] at hc
      exact ih c hc
    · simp only [collapseWs, hsp, Bool.false_eq_true, if_false,
        List.head?_cons] at hc
      cases hc
      simpa using hsp

/-- Helper: the output of whitespace collapsing has canonical
whitespace. -/
theorem wsCanonical_collapseWs :
    ∀ (l : List Char) (s : Bool), wsCanonical (collapseWs s l) = true := by
  intro l
  induction l with
  | nil =>
    intro s
    rfl
  | cons c rest ih =>
    intro s
    by_cases hsp : isPySpace c = true
    · cases s with
      | true =>
        simp only [collapseWs, hsp, if_true]
        exact ih true
      | false =>
        simp only [collapseWs, hsp, if_true]
        simp only [wsCanonical, Bool.and_eq_true]
        refine ⟨⟨by simp, ?_⟩, ih true⟩
        cases hcol : collapseWs true rest with
        | nil => simp
        | cons d t =>
          have hd := collapseWs_head_not_space rest d (by rw [hcol]; rfl)
          simp [hd]
    · simp only [collapseWs, hsp, Bool.false_eq_true, if_false]
      simp only [wsCanonical, Bool.and_eq_true]
      refine ⟨⟨by simp [hsp], ?_⟩, ih false⟩
      cases hcol : collapseWs false rest with
      | nil => simp
      | cons d t => simp [hsp]

/-- Helper: canonical whitespace passes to a suffix. -/
theorem wsCanonical_append_right (l1 l2 : List Char)
    (h : wsCanonical (l1 ++ l2) = true) : wsCanonical l2 = true := by
  induction l1 with
  | nil => exact h
  | cons c rest ih =>
    simp only [List.cons_append, wsCanonical, Bool.and_eq_true] at h
    exact ih h.2

/-- Helper: canonical whitespace passes to a prefix. -/
theorem wsCanonical_append_left (l1 l2 : List Char)
    (h : wsCanonical (l1 ++ l2) = true) : wsCanonical l1 = true := by
  induction l1 with
  | nil => rfl
  | cons c rest ih =>
    simp only [List.cons_append, wsCanonical, Bool.and_eq_true] at h
    simp only [wsCanonical, Bool.and_eq_true]
    refine ⟨⟨h.1.1, ?_⟩, ih h.2⟩
    cases rest with
    | nil => rfl
    | cons d t =>
      exact h.1.2

/-- Helper: the two-sided strip of a canonical string is canonical. -/
theorem wsCanonical_pyStrip (l : List Char) (h : wsCanonical l = true) :
    wsCanonical (pyStrip l) = true := by
  rw [pyStrip]
  have h1 : wsCanonical (l.dropWhile isPySpace) = true := by
    obtain ⟨t, ht⟩ := List.dropWhile_suffix (l := l) isPySpace
    rw [← ht] at h
    exact wsCanonical_append_right t _ h
  obtain ⟨l2, hl2⟩ := rstrip_prefix (l.dropWhile isPySpace)
  rw [hl2] at h1
  exact wsCanonical_append_left _ _ h1

/-- Helper: collapsing is the identity on canonical whitespace (with the
in-run flag only when the head is not a space). -/
theorem collapseWs_id :
    ∀ (l : List Char) (s : Bool), wsCanonical l = true →
      (s = true → ∀ c, l.head? = some c → isPySpace c = false) →
      collapseWs s l = l := by
  intro l
  induction l with
  | nil =>
    intro s h hs
    rfl
  | cons c rest ih =>
    intro s h hs
    simp only [wsCanonical, Bool.and_eq_true] at h
    by_cases hsp : isPySpace c = true
    · have hc : c = ' ' := by
        have h1 := h.1.1
        rw [hsp] at h1
        simpa using h1
      have hsfalse : s = false := by
        cases hss : s with
        | false => rfl
        | true =>
          rw [hs hss c rfl] at hsp
          cases hsp
      rw [hsfalse]
      simp only [collapseWs, hsp, if_true, Bool.false_eq_true, if_false]
      rw [hc]
      congr 1
      refine ih true h.2 (fun _ d hd => ?_)
      cases rest with
      | nil => cases hd
      | cons d' t =>
        simp only [List.head?_cons] at hd
        cases hd
        have h2 := h.1.2
        rw [hsp] at h2
        simpa using h2
    · simp only [collapseWs, hsp, Bool.false_eq_true, if_false]
      congr 1
      exact ih false h.2 (by simp)

/-- Helper: the head of a `dropWhile` result fails the predicate. -/
theorem head?_dropWhile_false (p : Char → Bool) (l : List Char) :
    ∀ c, (l.dropWhile p).head? = some c → p c = false := by
  induction l with
  | nil =>
    intro c hc
    cases hc
  | cons a rest ih =>
    intro c hc
    rw [List.dropWhile_cons] at hc
    by_cases hp : p a = true
    · rw [if_pos hp] at hc
      exact ih c hc
    · rw [if_neg hp] at hc
      simp only [List.head?_cons] at hc
      cases hc
      simpa using hp

/-- Helper: `dropWhile` is the identity when the head fails the
predicate. -/
theorem dropWhile_eq_self_of_head (p : Char → Bool) (l : List Char)
    (h : ∀ c, l.head? = some c → p c = false) : l.dropWhile p = l := by
  cases l with
  | nil => rfl
  | cons c rest =>
    rw [List.dropWhile_cons, if_neg]
    rw [h c rfl]
    simp

/-- Helper: `dropWhile` is idempotent. -/
theorem dropWhile_idem (p : Char → Bool) (l : List Char) :
    (l.dropWhile p).dropWhile p = l.dropWhile p :=
  dropWhile_eq_self_of_head p _ (head?_dropWhile_false p l)

/-- Helper: `str.strip()` is idempotent. -/
theorem pyStrip_idem (l : List Char) : pyStrip (pyStrip l) = pyStrip l := by
  have hps : pyStrip l =
      ((l.dropWhile isPySpace).reverse.dropWhile isPySpace).reverse := rfl
  have hstep1 : (pyStrip l).dropWhile isPySpace = pyStrip l := by
    refine dropWhile_eq_self_of_head _ _ (fun c hc => ?_)
    obtain ⟨l2, hl2⟩ := rstrip_prefix (l.dropWhile isPySpace)
    have hc' : (l.dropWhile isPySpace).head? = some c := by
      rw [hl2, ← hps]
      cases hp : pyStrip l with
      | nil =>
        rw [hp] at hc
        cases hc
      | cons d t =>
        rw [hp] at hc
        simp only [List.head?_cons] at hc
        cases hc
        simp
    exact head?_dropWhile_false isPySpace l c hc'
  rw [pyStrip, hstep1, hps, List.reverse_reverse, dropWhile_idem]

/-- Helper: every character of the scanner's output comes from its
input. -/
theorem mem_stripNums :
    ∀ (fuel : Nat) (p : Bool) (l : List Char) (c : Char),
      c ∈ stripNums fuel p l → c ∈ l := by
  intro fuel
  induction fuel with
  | zero =>
    intro p l c hc
    exact hc
  | succ fuel ih =>
    intro p l c hc
    cases l with
    | nil => exact hc
    | cons a rest =>
      by_cases hcond : (isPyDigit a && !p) = true
      · simp only [stripNums, hcond, if_true] at hc
        have h1 := ih _ _ _ hc
        have h2 := (List.IsSuffix.sublist (eatMatch_suffix fuel rest)).subset h1
        exact List.mem_cons_of_mem a h2
      · simp only [stripNums, hcond, Bool.false_eq_true, if_false] at hc
        rcases List.mem_cons.mp hc with rfl | hc'
        · exact List.mem_cons_self _ _
        · exact List.mem_cons_of_mem a (ih _ _ _ hc')

/-- Helper: every character of a collapsed string is a space or comes from
the input. -/
theorem mem_collapseWs :
    ∀ (l : List Char) (s : Bool) (c : Char),
      c ∈ collapseWs s l → c = ' ' ∨ c ∈ l := by
  intro l
  induction l with
  | nil =>
    intro s c hc
    cases hc
  | cons a rest ih =>
    intro s c hc
    by_cases hsp : isPySpace a = true
    · cases s with
      | true =>
        simp only [collapseWs, hsp, if_true] at hc
        rcases ih true c hc with h | h
        · exact Or.inl h
        · exact Or.inr (List.mem_cons_of_mem a h)
      | false =>
        simp only [collapseWs, hsp, if_true] at hc
        rcases List.mem_cons.mp hc with rfl | hc'
        · exact Or.inl rfl
        · rcases ih true c hc' with h | h
          · exact Or.inl h
          · exact Or.inr (List.mem_cons_of_mem a h)
    · simp only [collapseWs, hsp, Bool.false_eq_true, if_false] at hc
      rcases List.mem_cons.mp hc with rfl | hc'
      · exact Or.inr (List.mem_cons_self _ _)
      · rcases ih false c hc' with h | h
        · exact Or.inl h
        · exact Or.inr (List.mem_cons_of_mem a h)

/-- Helper: stripping keeps only characters of the input. -/
theorem mem_pyStrip (l : List Char) (c : Char) (hc : c ∈ pyStrip l) :
    c ∈ l := by
  rw [pyStrip] at hc
  rw [List.mem_reverse] at hc
  have h1 := (List.dropWhile_sublist (l := (l.dropWhile isPySpace).reverse) isPySpace).subset hc
  rw [List.mem_reverse] at h1
  exact (List.dropWhile_sublist isPySpace).subset h1

/-- C3: `normalize_title` is idempotent — normalizing an already-normalized
title yields the same string.  The output has no Thai digits, no
punctuation-class characters, canonical whitespace, lowercase-fixed
characters, is stripped, and every remaining digit sits directly after a
word character, so none of the six stages changes it. -/
theorem claim_C3_normalize_idempotent (s : List Char) :
    normalize_title (normalize_title s) = normalize_title s := by
  set A := (pyStrip s).map toLowerPy with hA
  set B := removeNumberRuns A with hB
  set C := removeThaiDigits B with hC
  set D := punctToSpace C with hD
  set E := collapseWs false D with hE
  have hr : normalize_title s = pyStrip E := rfl
  -- lowercase-fixedness flows down the pipeline
  have hlowA : ∀ c ∈ A, toLowerPy c = c := by
    intro c hc
    rw [hA] at hc
    rcases List.mem_map.mp hc with ⟨x, -, rfl⟩
    exact (toLowerPy_spec x).1
  have hmemB : ∀ c ∈ B, c ∈ A := by
    intro c hc
    rw [hB, removeNumberRuns] at hc
    exact mem_stripNums _ _ _ _ hc
  have hlowB : ∀ c ∈ B, toLowerPy c = c := fun c hc => hlowA c (hmemB c hc)
  have hguardB : guardedAux false B = true := by
    rw [hB, removeNumberRuns]
    exact guardedAux_stripNums A.length false A (le_refl _)
  have hmemC : ∀ c ∈ C, c ∈ B := by
    intro c hc
    rw [hC, removeThaiDigits] at hc
    exact List.mem_of_mem_filter hc
  have hthaiC : ∀ c ∈ C, isThaiDigit c = false := by
    intro c hc
    rw [hC, removeThaiDigits] at hc
    have := (List.mem_filter.mp hc).2
    simpa using this
  have hlowC : ∀ c ∈ C, toLowerPy c = c := fun c hc => hlowB c (hmemC c hc)
  have hguardC : guardedAux false C = true := by
    rw [hC, removeThaiDigits]
    refine guardedAux_filter _ ?_ B false hguardB
    intro c hkc
    have hth : isThaiDigit c = true := by simpa using hkc
    exact ⟨isThaiDigit_isPyDigit hth, isPyDigit_isWordChar (isThaiDigit_isPyDigit hth)⟩
  have hgd : ∀ c : Char, isPyDigit (if isPunctChar c then ' ' else c) = isPyDigit c := by
    intro c
    by_cases hp : isPunctChar c = true
    · rw [if_pos hp, (isPunctChar_classes hp).1, space_char_classes.2.2.1]
    · rw [if_neg hp]
  have hgw : ∀ c : Char, isWordChar (if isPunctChar c then ' ' else c) = isWordChar c := by
    intro c
    by_cases hp : isPunctChar c = true
    · rw [if_pos hp, (isPunctChar_classes hp).2.1, space_char_classes.2.1]
    · rw [if_neg hp]
  have hguardD : guardedAux false D = true := by
    rw [hD, punctToSpace]
    exact guardedAux_map _ hgd hgw C false hguardC
  have hmemD : ∀ c ∈ D, c = ' ' ∨ c ∈ C := by
    intro c hc
    rw [hD, punctToSpace] at hc
    rcases List.mem_map.mp hc with ⟨x, hx, rfl⟩
    by_cases hp : isPunctChar x = true
    · rw [if_pos hp]
      exact Or.inl rfl
    · rw [if_neg hp]
      exact Or.inr hx
  have hthaiD : ∀ c ∈ D, isThaiDigit c = false := by
    intro c hc
    rcases hmemD c hc with rfl | hx
    · exact space_char_classes.2.2.2.1
    · exact hthaiC c hx
  have hpunctD : ∀ c ∈ D, isPunctChar c = false := by
    intro c hc
    rw [hD, punctToSpace] at hc
    rcases List.mem_map.mp hc with ⟨x, hx, rfl⟩
    by_cases hp : isPunctChar x = true
    · rw [if_pos hp]
      exact space_char_classes.2.2.2.2.1
    · rw [if_neg hp]
      simpa using hp
  have hlowD : ∀ c ∈ D, toLowerPy c = c := by
    intro c hc
    rcases hmemD c hc with rfl | hx
    · exact space_char_classes.2.2.2.2.2
    · exact hlowC c hx
  have hguardE : guardedAux false E = true := by
    rw [hE]
    exact guardedAux_collapseWs D false false hguardD (by simp)
  have hwsE : wsCanonical E = true := by
    rw [hE]
    exact wsCanonical_collapseWs D false
  have hmemE : ∀ c ∈ E, c = ' ' ∨ c ∈ D := by
    intro c hc
    rw [hE] at hc
    exact mem_collapseWs D false c hc
  have hthaiE : ∀ c ∈ E, isThaiDigit c = false := by
    intro c hc
    rcases hmemE c hc with rfl | hx
    · exact space_char_classes.2.2.2.1
    · exact hthaiD c hx
  have hpunctE : ∀ c ∈ E, isPunctChar c = false := by
    intro c hc
    rcases hmemE c hc with rfl | hx
    · exact space_char_classes.2.2.2.2.1
    · exact hpunctD c hx
  have hlowE : ∀ c ∈ E, toLowerPy c = c := by
    intro c hc
    rcases hmemE c hc with rfl | hx
    · exact space_char_classes.2.2.2.2.2
    · exact hlowD c hx
  -- the invariants hold of the final output
  have hguardR : guardedAux false (pyStrip E) = true := guardedAux_pyStrip E hguardE
  have hwsR : wsCanonical (pyStrip E) = true := wsCanonical_pyStrip E hwsE
  have hthaiR : ∀ c ∈ pyStrip E, isThaiDigit c = false :=
    fun c hc => hthaiE c (mem_pyStrip E c hc)
  have hpunctR : ∀ c ∈ pyStrip E, isPunctChar c = false :=
    fun c hc => hpunctE c (mem_pyStrip E c hc)
  have hlowR : ∀ c ∈ pyStrip E, toLowerPy c = c :=
    fun c hc => hlowE c (mem_pyStrip E c hc)
  -- each stage fixes the output
  have h1 : pyStrip (pyStrip E) = pyStrip E := pyStrip_idem E
  have h2 : (pyStrip E).map toLowerPy = pyStrip E := by
    rw [List.map_congr_left (fun c hc => hlowR c hc)]
    exact List.map_id _
  have h3 : removeNumberRuns (pyStrip E) = pyStrip E := by
    rw [removeNumberRuns]
    exact stripNums_id _ false _ (le_refl _) hguardR
  have h4 : removeThaiDigits (pyStrip E) = pyStrip E := by
    rw [removeThaiDigits]
    refine List.filter_eq_self.mpr (fun c hc => ?_)
    simp [hthaiR c hc]
  have h5 : punctToSpace (pyStrip E) = pyStrip E := by
    rw [punctToSpace]
    have : ∀ c ∈ pyStrip E, (if isPunctChar c then ' ' else c) = id c := by
      intro c hc
      rw [if_neg (by simp [hpunctR c hc])]
      rfl
    rw [List.map_congr_left this]
    exact List.map_id _
  have h6 : collapseWs false (pyStrip E) = pyStrip E :=
    collapseWs_id (pyStrip E) false hwsR (by simp)
  have hfinal : normalize_title (pyStrip E) =
      pyStrip (collapseWs false (punctToSpace (removeThaiDigits
        (removeNumberRuns ((pyStrip (pyStrip E)).map toLowerPy))))) := rfl
  rw [hr, hfinal, h1, h2, h3, h4, h5, h6, h1]

/-! ### Adequacy of the fuel in `matchedTotal`

`matchedTotalF` runs on fuel `len a + len b`.  The lemmas below show the
block returned by `find_longest_match` stays inside the lists, so the
windows of the recursion shrink strictly and that much fuel can never run
out: `matchedTotal` computes the total the unbounded recursion would. -/

/-- Helper: positions returned by `b2j` are in range. -/
theorem b2j_lt (pop : Char → Bool) (b : List Char) (c : Char) (j : Nat)
    (hj : j ∈ b2j pop b c) : j < b.length := by
  rw [b2j] at hj
  have hj' : j ∈ positionsIn b c := by
    by_cases hpop : pop c = true
    · rw [if_pos hpop] at hj
      cases hj
    · rw [if_neg hpop] at hj
      exact hj
  rw [positionsIn] at hj'
  exact List.mem_range.mp (List.mem_of_mem_filter hj')

/-- Helper: an ordered fold over `List.range n` preserves an indexed
invariant. -/
theorem foldl_range_inv {σ : Type} (P : Nat → σ → Prop) (f : σ → Nat → σ)
    (n : Nat) (init : σ) (h0 : P 0 init)
    (hstep : ∀ i s, i < n → P i s → P (i + 1) (f s i)) :
    P n (List.foldl f init (List.range n)) := by
  induction n with
  | zero => exact h0
  | succ n ih =>
    rw [List.range_succ, List.foldl_append, List.foldl_cons, List.foldl_nil]
    exact hstep n _ (Nat.lt_succ_self n)
      (ih (fun i s hi hP => hstep i s (Nat.lt_succ_of_lt hi) hP))

/-- The in-range property of a running best block. -/
def BlockInRange (a b : List Char) (m : MatchBlock) : Prop :=
  m.besti + m.bestsize ≤ a.length ∧ m.bestj + m.bestsize ≤ b.length

/-- Helper: one row of the dynamic program keeps the best block in range
and the run lengths bounded by the row number and the column. -/
theorem rowStep_inv (a b : List Char) (j2len : Nat → Nat) (i : Nat)
    (hi : i < a.length) (hj2 : ∀ x, j2len x ≤ i ∧ j2len x ≤ x + 1)
    (js : List Nat) (hjs : ∀ j ∈ js, j < b.length)
    (st : (Nat → Nat) × MatchBlock)
    (hst : (∀ x, st.1 x ≤ i + 1 ∧ st.1 x ≤ x + 1) ∧ BlockInRange a b st.2) :
    (∀ x, (js.foldl (rowStep j2len i) st).1 x ≤ i + 1 ∧
        (js.foldl (rowStep j2len i) st).1 x ≤ x + 1) ∧
      BlockInRange a b (js.foldl (rowStep j2len i) st).2 := by
  refine foldl_invariant (rowStep j2len i) js st
    (fun st => (∀ x, st.1 x ≤ i + 1 ∧ st.1 x ≤ x + 1) ∧ BlockInRange a b st.2)
    hst ?_
  intro s j hj hP
  have hjb : j < b.length := hjs j hj
  have hk1 : (if j = 0 then 0 else j2len (j - 1)) + 1 ≤ i + 1 := by
    by_cases hj0 : j = 0
    · rw [if_pos hj0]
      omega
    · rw [if_neg hj0]
      have := (hj2 (j - 1)).1
      omega
  have hk2 : (if j = 0 then 0 else j2len (j - 1)) + 1 ≤ j + 1 := by
    by_cases hj0 : j = 0
    · rw [if_pos hj0]
      omega
    · rw [if_neg hj0]
      have := (hj2 (j - 1)).2
      omega
  constructor
  · intro x
    simp only [rowStep]
    by_cases hx : x = j
    · rw [if_pos hx]
      exact ⟨hk1, hx ▸ hk2⟩
    · rw [if_neg hx]
      exact hP.1 x
  · simp only [rowStep]
    by_cases hbest : s.2.bestsize < (if j = 0 then 0 else j2len (j - 1)) + 1
    · rw [if_pos hbest]
      refine ⟨?_, ?_⟩
      · show (i + 1 - ((if j = 0 then 0 else j2len (j - 1)) + 1)) +
            ((if j = 0 then 0 else j2len (j - 1)) + 1) ≤ a.length
        omega
      · show (j + 1 - ((if j = 0 then 0 else j2len (j - 1)) + 1)) +
            ((if j = 0 then 0 else j2len (j - 1)) + 1) ≤ b.length
        omega
    · rw [if_neg hbest]
      exact hP.2

/-- Helper: the dynamic program's best block is in range. -/
theorem flmDP_inRange (pop : Char → Bool) (a b : List Char) :
    BlockInRange a b (flmDP pop a b) := by
  rw [flmDP]
  have := foldl_range_inv
    (fun i st => (∀ x, st.1 x ≤ i ∧ st.1 x ≤ x + 1) ∧ BlockInRange a b st.2)
    (fun (st : (Nat → Nat) × MatchBlock) i =>
      (b2j pop b (a.getD i ' ')).foldl (rowStep st.1 i) ((fun _ => 0), st.2))
    a.length ((fun _ => 0), ⟨0, 0, 0⟩)
    ⟨fun x => ⟨Nat.zero_le _, Nat.zero_le _⟩,
      ⟨Nat.zero_le _, Nat.zero_le _⟩⟩ ?_
  · exact this.2
  · intro i st hi hP
    exact rowStep_inv a b st.1 i hi
      (fun x => (hP.1 x))
      (b2j pop b (a.getD i ' ')) (fun j hj => b2j_lt pop b _ j hj)
      ((fun _ => 0), st.2)
      ⟨fun x => ⟨Nat.zero_le _, Nat.zero_le _⟩, hP.2⟩

/-- Helper: the backward extension keeps the block in range. -/
theorem extendBack_inRange (a b : List Char) :
    ∀ (fuel : Nat) (m : MatchBlock), BlockInRange a b m →
      BlockInRange a b (extendBack a b fuel m) := by
  intro fuel
  induction fuel with
  | zero =>
    intro m hm
    exact hm
  | succ fuel ih =>
    intro m hm
    rw [extendBack]
    by_cases hc : (0 < m.besti && 0 < m.bestj &&
        matchAt a b (m.besti - 1) (m.bestj - 1)) = true
    · rw [if_pos hc]
      have h1 : 0 < m.besti ∧ 0 < m.bestj := by
        revert hc
        cases h1 : decide (0 < m.besti) <;> cases h2 : decide (0 < m.bestj) <;>
          simp at h1 h2 ⊢ <;> omega
      refine ih _ ⟨?_, ?_⟩
      · show m.besti - 1 + (m.bestsize + 1) ≤ a.length
        have := hm.1
        omega
      · show m.bestj - 1 + (m.bestsize + 1) ≤ b.length
        have := hm.2
        omega
    · rw [if_neg hc]
      exact hm

/-- Helper: the forward extension keeps the block in range. -/
theorem extendFwd_inRange (a b : List Char) :
    ∀ (fuel : Nat) (m : MatchBlock), BlockInRange a b m →
      BlockInRange a b (extendFwd a b fuel m) := by
  intro fuel
  induction fuel with
  | zero =>
    intro m hm
    exact hm
  | succ fuel ih =>
    intro m hm
    rw [extendFwd]
    by_cases hc : (m.besti + m.bestsize < a.length &&
        m.bestj + m.bestsize < b.length &&
        matchAt a b (m.besti + m.bestsize) (m.bestj + m.bestsize)) = true
    · rw [if_pos hc]
      have h1 : m.besti + m.bestsize < a.length ∧
          m.bestj + m.bestsize < b.length := by
        revert hc
        cases h1 : decide (m.besti + m.bestsize < a.length) <;>
          cases h2 : decide (m.bestj + m.bestsize < b.length) <;>
          simp at h1 h2 ⊢ <;> omega
      refine ih _ ⟨?_, ?_⟩
      · show m.besti + (m.bestsize + 1) ≤ a.length
        omega
      · show m.bestj + (m.bestsize + 1) ≤ b.length
        omega
    · rw [if_neg hc]
      exact hm

/-- Helper: the longest matching block lies inside both lists. -/
theorem find_longest_match_inRange (pop : Char → Bool) (a b : List Char) :
    BlockInRange a b (find_longest_match pop a b) :=
  extendFwd_inRange a b _ _ (extendBack_inRange a b _ _ (flmDP_inRange pop a b))

/-- Helper: the matched total of two empty lists is 0 on any fuel. -/
theorem matchedTotalF_empty (pop : Char → Bool) (f : Nat) :
    matchedTotalF pop f [] [] = 0 := by
  cases f with
  | zero => rfl
  | succ f =>
    have hIR := (find_longest_match_inRange pop ([] : List Char) []).1
    simp only [List.length_nil] at hIR
    simp only [matchedTotalF]
    rw [if_pos (by omega)]

/-- Helper: `matchedTotalF` is independent of the fuel once the fuel
reaches `len a + len b`: the recursion always terminates within it. -/
theorem matchedTotalF_fuel (pop : Char → Bool) :
    ∀ (n : Nat) (a b : List Char) (f : Nat),
      a.length + b.length ≤ n → a.length + b.length ≤ f →
      matchedTotalF pop f a b = matchedTotalF pop (a.length + b.length) a b := by
  intro n
  induction n with
  | zero =>
    intro a b f hn hf
    have ha : a = [] := List.length_eq_zero.mp (by omega)
    have hb : b = [] := List.length_eq_zero.mp (by omega)
    subst ha
    subst hb
    rw [matchedTotalF_empty, matchedTotalF_empty]
  | succ n ih =>
    intro a b f hn hf
    rcases Nat.eq_zero_or_pos (a.length + b.length) with hz | hpos
    · have ha : a = [] := List.length_eq_zero.mp (by omega)
      have hb : b = [] := List.length_eq_zero.mp (by omega)
      subst ha
      subst hb
      rw [matchedTotalF_empty, matchedTotalF_empty]
    · obtain ⟨f', rfl⟩ : ∃ f', f = f' + 1 := ⟨f - 1, by omega⟩
      obtain ⟨m, hm⟩ : ∃ m, a.length + b.length = m + 1 :=
        ⟨a.length + b.length - 1, by omega⟩
      rw [hm]
      simp only [matchedTotalF]
      by_cases hsz : (find_longest_match pop a b).bestsize = 0
      · rw [if_pos hsz, if_pos hsz]
      · rw [if_neg hsz, if_neg hsz]
        obtain ⟨h1, h2⟩ := find_longest_match_inRange pop a b
        have hta : (a.take (find_longest_match pop a b).besti).length =
            (find_longest_match pop a b).besti := by
          rw [List.length_take]
          omega
        have htb : (b.take (find_longest_match pop a b).bestj).length =
            (find_longest_match pop a b).bestj := by
          rw [List.length_take]
          omega
        have hda : (a.drop ((find_longest_match pop a b).besti +
            (find_longest_match pop a b).bestsize)).length =
            a.length - ((find_longest_match pop a b).besti +
              (find_longest_match pop a b).bestsize) := by
          rw [List.length_drop]
        have hdb : (b.drop ((find_longest_match pop a b).bestj +
            (find_longest_match pop a b).bestsize)).length =
            b.length - ((find_longest_match pop a b).bestj +
              (find_longest_match pop a b).bestsize) := by
          rw [List.length_drop]
        have hleft : matchedTotalF pop f'
            (a.take (find_longest_match pop a b).besti)
            (b.take (find_longest_match pop a b).bestj) = matchedTotalF pop m
            (a.take (find_longest_match pop a b).besti)
            (b.take (find_longest_match pop a b).bestj) := by
          rw [ih _ _ f' (by rw [hta, htb]; omega) (by rw [hta, htb]; omega),
            ih _ _ m (by rw [hta, htb]; omega) (by rw [hta, htb]; omega)]
        have hright : matchedTotalF pop f'
            (a.drop ((find_longest_match pop a b).besti + (find_longest_match pop a b).bestsize))
            (b.drop ((find_longest_match pop a b).bestj + (find_longest_match pop a b).bestsize)) =
            matchedTotalF pop m
            (a.drop ((find_longest_match pop a b).besti + (find_longest_match pop a b).bestsize))
            (b.drop ((find_longest_match pop a b).bestj + (find_longest_match pop a b).bestsize)) := by
          rw [ih _ _ f' (by rw [hda, hdb]; omega) (by rw [hda, hdb]; omega),
            ih _ _ m (by rw [hda, hdb]; omega) (by rw [hda, hdb]; omega)]
        rw [hleft, hright]

/-- The fuel `len a + len b` of `matchedTotal` is adequate: any larger fuel
computes the same total, so the bounded recursion agrees with difflib's
unbounded one. -/
theorem matchedTotal_fuel_adequate (a b : List Char) (f : Nat)
    (hf : a.length + b.length ≤ f) :
    matchedTotalF (isPopular b) f a b = matchedTotal a b :=
  matchedTotalF_fuel (isPopular b) (a.length + b.length) a b f (le_refl _) hf

/-! ### Adequacy of the fuel in the regex scanners

Each group of `(?:[\.-]\d+)*` consumes at least two characters and each
scanner step consumes at least one, so fuel equal to the input length is
always enough; the lemmas below make that exact, showing the fueled
definitions agree with the unbounded recursions they stand for. -/

/-- Helper: `eatGroups` is independent of its fuel once the fuel reaches
the input length. -/
theorem eatGroups_fuel :
    ∀ (n : Nat) (l : List Char) (f : Nat), l.length ≤ n → l.length ≤ f →
      eatGroups f l = eatGroups l.length l := by
  intro n
  induction n with
  | zero =>
    intro l f hn hf
    have hl : l = [] := List.length_eq_zero.mp (by omega)
    subst hl
    cases f with
    | zero => rfl
    | succ f => rfl
  | succ n ih =>
    intro l f hn hf
    match l, f with
    | [], 0 => rfl
    | [], f + 1 => rfl
    | [c], f =>
      cases f with
      | zero => simp at hf
      | succ f => rfl
    | sep :: c :: rest, f =>
      cases f with
      | zero => simp at hf
      | succ f =>
        rw [eatGroups]
        conv_rhs => rw [List.length_cons, eatGroups]
        by_cases hc : ((sep = '.' || sep = '-') && isPyDigit c) = true
        · rw [if_pos hc, if_pos hc]
          have hdd : (dropDigits rest).length ≤ rest.length :=
            List.IsSuffix.length_le (List.dropWhile_suffix _)
          rw [ih (dropDigits rest) f (by simp at hn; omega) (by simp at hf; omega),
            ih (dropDigits rest) (c :: rest).length (by simp at hn; omega)
              (by simp; omega)]
        · rw [if_neg hc, if_neg hc]

/-- Helper: `eatMatch` is independent of its fuel once the fuel reaches
the input length. -/
theorem eatMatch_fuel (l : List Char) (f : Nat) (hf : l.length ≤ f) :
    eatMatch f l = eatMatch l.length l := by
  rw [eatMatch, eatMatch]
  have hdd : (dropDigits l).length ≤ l.length :=
    List.IsSuffix.length_le (List.dropWhile_suffix _)
  rw [eatGroups_fuel (dropDigits l).length (dropDigits l) f (le_refl _) (by omega),
    eatGroups_fuel (dropDigits l).length (dropDigits l) l.length (le_refl _) (by omega)]

/-- Helper: the substitution 1 scanner is independent of its fuel once the
fuel reaches the input length. -/
theorem stripNums_fuel :
    ∀ (n : Nat) (p : Bool) (l : List Char) (f : Nat), l.length ≤ n →
      l.length ≤ f → stripNums f p l = stripNums l.length p l := by
  intro n
  induction n with
  | zero =>
    intro p l f hn hf
    have hl : l = [] := List.length_eq_zero.mp (by omega)
    subst hl
    cases f with
    | zero => rfl
    | succ f => rfl
  | succ n ih =>
    intro p l f hn hf
    cases l with
    | nil =>
      cases f with
      | zero => rfl
      | succ f => rfl
    | cons c rest =>
      obtain ⟨f', rfl⟩ : ∃ f', f = f' + 1 := ⟨f - 1, by simp at hf; omega⟩
      rw [stripNums]
      conv_rhs => rw [List.length_cons, stripNums]
      by_cases hcond : (isPyDigit c && !p) = true
      · rw [if_pos hcond, if_pos hcond]
        have hrest : rest.length ≤ f' := by simp at hf; omega
        have hrest' : rest.length ≤ n := by simp at hn; omega
        rw [eatMatch_fuel rest f' hrest, eatMatch_fuel rest rest.length (le_refl _)]
        have hsuf : (eatMatch rest.length rest).1.length ≤ rest.length :=
          List.IsSuffix.length_le (eatMatch_suffix _ _)
        rw [ih _ _ f' (by omega) (by omega),
          ih _ _ rest.length (by omega) (by omega)]
      · rw [if_neg hcond, if_neg hcond]
        congr 1
        have hrest' : rest.length ≤ n := by simp at hn; omega
        rw [ih _ _ f' (by omega) (by simp at hf; omega),
          ih _ _ rest.length (by omega) (le_refl _)]

/-- Helper: the dotted-prefix matcher is independent of its fuel once the
fuel reaches the input length. -/
theorem dottedTailOk_fuel :
    ∀ (n : Nat) (l : List Char) (f : Nat), l.length ≤ n → l.length ≤ f →
      dottedTailOk f l = dottedTailOk l.length l := by
  intro n
  induction n with
  | zero =>
    intro l f hn hf
    have hl : l = [] := List.length_eq_zero.mp (by omega)
    subst hl
    cases f with
    | zero => rfl
    | succ f => rfl
  | succ n ih =>
    intro l f hn hf
    cases l with
    | nil =>
      cases f with
      | zero => rfl
      | succ f => rfl
    | cons c rest =>
      obtain ⟨f', rfl⟩ : ∃ f', f = f' + 1 := ⟨f - 1, by simp at hf; omega⟩
      simp only [List.length_cons, dottedTailOk]
      congr 1
      cases rest with
      | nil => simp
      | cons d t =>
        by_cases hd : isPyDigit d = true
        · have hdd : (dropDigits (d :: t)).length ≤ t.length := by
            rw [dropDigits, List.dropWhile_cons, if_pos hd]
            exact List.IsSuffix.length_le (List.dropWhile_suffix _)
          congr 1
          rw [ih _ f' (by simp at hn; omega) (by simp at hf; omega),
            ih _ (d :: t).length (by simp at hn; omega) (by simp; omega)]
        · have hd' : isPyDigit d = false := by simpa using hd
          simp [hd']

/-- Helper: the backward extension decrements `besti` each pass, so
`besti` passes of fuel are exact: more fuel changes nothing. -/
theorem extendBack_fuel (a b : List Char) :
    ∀ (fuel : Nat) (m : MatchBlock), m.besti ≤ fuel →
      extendBack a b fuel m = extendBack a b m.besti m := by
  intro fuel
  induction fuel with
  | zero =>
    intro m hm
    rw [Nat.le_zero.mp hm]
  | succ fuel ih =>
    intro m hm
    cases hbi : m.besti with
    | zero =>
      have h1 : extendBack a b (fuel + 1) m = m := by
        rw [extendBack, if_neg (by simp [hbi])]
      rw [h1]
      rfl
    | succ k =>
      rw [extendBack]
      conv_rhs => rw [extendBack]
      by_cases hc : (0 < m.besti && 0 < m.bestj &&
          matchAt a b (m.besti - 1) (m.bestj - 1)) = true
      · rw [if_pos hc, if_pos hc]
        have hk : (⟨m.besti - 1, m.bestj - 1, m.bestsize + 1⟩ : MatchBlock).besti = k := by
          simp [hbi]
        rw [ih _ (by rw [hk]; omega), hk]
      · rw [if_neg hc, if_neg hc]

/-- Helper: the forward extension increments `bestsize` under
`besti + bestsize < len a` each pass, so `len a - (besti + bestsize)`
passes of fuel are exact: more fuel changes nothing. -/
theorem extendFwd_fuel (a b : List Char) :
    ∀ (fuel : Nat) (m : MatchBlock),
      a.length - (m.besti + m.bestsize) ≤ fuel →
      extendFwd a b fuel m =
        extendFwd a b (a.length - (m.besti + m.bestsize)) m := by
  intro fuel
  induction fuel with
  | zero =>
    intro m hm
    rw [Nat.le_zero.mp hm]
  | succ fuel ih =>
    intro m hm
    cases hms : a.length - (m.besti + m.bestsize) with
    | zero =>
      have hlt : ¬ (m.besti + m.bestsize < a.length) := by omega
      have h1 : extendFwd a b (fuel + 1) m = m := by
        rw [extendFwd, if_neg (by simp [hlt])]
      rw [h1]
      rfl
    | succ k =>
      rw [extendFwd]
      conv_rhs => rw [extendFwd]
      by_cases hc : (m.besti + m.bestsize < a.length &&
          m.bestj + m.bestsize < b.length &&
          matchAt a b (m.besti + m.bestsize) (m.bestj + m.bestsize)) = true
      · rw [if_pos hc, if_pos hc]
        have hk : a.length - ((⟨m.besti, m.bestj, m.bestsize + 1⟩ : MatchBlock).besti +
            (⟨m.besti, m.bestj, m.bestsize + 1⟩ : MatchBlock).bestsize) = k := by
          show a.length - (m.besti + (m.bestsize + 1)) = k
          omega
        rw [ih _ (by rw [hk]; omega), hk]
      · rw [if_neg hc, if_neg hc]

/-- The fuels used inside `find_longest_match` (`besti` for the backward
loop, `len a` for the forward loop) are adequate: any larger fuels compute
the same block, so the bounded loops agree with difflib's while loops. -/
theorem find_longest_match_fuel_adequate (pop : Char → Bool)
    (a b : List Char) (f1 f2 : Nat)
    (h1 : (flmDP pop a b).besti ≤ f1) (h2 : a.length ≤ f2) :
    extendFwd a b f2 (extendBack a b f1 (flmDP pop a b)) =
      find_longest_match pop a b := by
  rw [find_longest_match, extendBack_fuel a b f1 _ h1]
  rw [extendFwd_fuel a b f2 _ (by omega), extendFwd_fuel a b a.length _ (by omega)]
